import Mathlib

/-!
Verification of the claude-code-proxy request/response transformation engine.

The TypeScript source is shallowly embedded: JSON values become the mutual
inductive `Json`/`JsonList`/`JsonObj` (a JavaScript object is an ordered list
of string-keyed fields), JavaScript property access, truthiness, and string
coercion become explicit helper functions, functions that mutate their
argument become state-passing functions, and code that can raise an exception
returns `Option`/`Except`.  The streaming re-emitter of `src/index.ts` is
embedded as a step function over an explicit stream state, producing the list
of emitted SSE events.
-/

set_option maxHeartbeats 1000000
set_option maxRecDepth 4000

/-! # JSON data model -/

mutual
inductive Json where
  | null
  | bool (b : Bool)
  | num (n : Int)
  | str (s : String)
  | arr (elems : JsonList)
  | obj (fields : JsonObj)
deriving DecidableEq

inductive JsonList where
  | nil
  | cons (hd : Json) (tl : JsonList)
deriving DecidableEq

inductive JsonObj where
  | nil
  | cons (k : String) (v : Json) (tl : JsonObj)
deriving DecidableEq
end

/-- Build a `JsonList` from a Lean list. -/
def JsonList.ofList : List Json → JsonList
  | [] => .nil
  | x :: xs => .cons x (JsonList.ofList xs)

/-- Back to a Lean list. -/
def JsonList.toList : JsonList → List Json
  | .nil => []
  | .cons x xs => x :: xs.toList

/-- Build a `JsonObj` from a Lean association list. -/
def JsonObj.ofList : List (String × Json) → JsonObj
  | [] => .nil
  | (k, v) :: kvs => .cons k v (JsonObj.ofList kvs)

/-- JSON array literal helper. -/
def jarr (l : List Json) : Json := .arr (JsonList.ofList l)

/-- JSON object literal helper. -/
def jobj (l : List (String × Json)) : Json := .obj (JsonObj.ofList l)

/-- First-occurrence field lookup, the semantics of JavaScript property read
on an object (JS objects have unique keys, so first = only). -/
def JsonObj.getF : JsonObj → String → Option Json
  | .nil, _ => none
  | .cons k v kvs, key => if k = key then some v else kvs.getF key

/-- Key membership. -/
def JsonObj.hasKey (kvs : JsonObj) (key : String) : Bool :=
  (kvs.getF key).isSome

/-- JavaScript property assignment `o[k] = v`: overwrite in place if the key
exists, otherwise append. -/
def JsonObj.setKey : JsonObj → String → Json → JsonObj
  | .nil, key, v => .cons key v .nil
  | .cons k w kvs, key, v =>
    if k = key then .cons k v kvs else .cons k w (kvs.setKey key v)

/-- JavaScript `delete o[k]`. -/
def JsonObj.delKey : JsonObj → String → JsonObj
  | .nil, _ => .nil
  | .cons k v kvs, key =>
    if k = key then kvs.delKey key else .cons k v (kvs.delKey key)

/-! # JavaScript value semantics

`Option Json` models a JavaScript value that may also be `undefined`
(`none`). -/

/-- A JavaScript value: `none` is `undefined`. -/
abbrev JsVal := Option Json

/-- JavaScript truthiness of a defined value. -/
def truthy : Json → Bool
  | .null => false
  | .bool b => b
  | .num n => n != 0
  | .str s => s ≠ ""
  | .arr _ => true
  | .obj _ => true

/-- JavaScript truthiness, `undefined` being falsy. -/
def truthyU : JsVal → Bool
  | none => false
  | some j => truthy j

/-- Property read `v.k` on a value known to be neither `null` nor
`undefined`: objects look the key up, everything else yields `undefined`
(the source only reads named, non-numeric keys on primitives). -/
def propNT : Json → String → JsVal
  | .obj kvs, k => kvs.getF k
  | _, _ => none

/-- Property read `v.k` that throws (`.error`) when `v` is `null` or
`undefined`. -/
def propT : JsVal → String → Except Unit JsVal
  | none, _ => .error ()
  | some .null, _ => .error ()
  | some v, k => .ok (propNT v k)

/-- Optional chaining `v?.k`. -/
def optChain (v : JsVal) (k : String) : JsVal :=
  match v with
  | none => none
  | some .null => none
  | some w => propNT w k

/-- JavaScript `a || b` on values. -/
def jsOr (a b : JsVal) : JsVal := if truthyU a then a else b

/-! ## Decimal rendering and parsing (models `String(n)` / `parseInt`) -/

/-- Decimal digit character. -/
def digitChar (d : Nat) : Char := Char.ofNat (48 + d)

/-- Digit characters of a natural number, most significant first
(fuelled so that it computes by `rfl`). -/
def natToCharsAux : Nat → Nat → List Char
  | 0, _ => []
  | fuel + 1, n =>
    if n < 10 then [digitChar n]
    else natToCharsAux fuel (n / 10) ++ [digitChar (n % 10)]

/-- Decimal rendering of a natural number, as JavaScript `String(n)`. -/
def natToChars (n : Nat) : List Char := natToCharsAux (n + 1) n

/-- Decimal rendering of an integer, as JavaScript `String(n)`. -/
def intToChars (n : Int) : List Char :=
  if n < 0 then '-' :: natToChars n.natAbs else natToChars n.natAbs

mutual
/-- JavaScript string coercion `String(v)` (arrays join their elements with
commas, `null`/`undefined` elements becoming empty; plain objects render as
`[object Object]`). -/
def jsToStr : Json → String
  | .null => "null"
  | .bool b => if b then "true" else "false"
  | .num n => String.mk (intToChars n)
  | .str s => s
  | .arr xs => jsToStrArr xs
  | .obj _ => "[object Object]"

def jsToStrArr : JsonList → String
  | .nil => ""
  | .cons x .nil => jsToStrElem x
  | .cons x xs => jsToStrElem x ++ "," ++ jsToStrArr xs

/-- Array elements coerce like `String(v)` except that `null` (and
`undefined`) render empty. -/
def jsToStrElem : Json → String
  | .null => ""
  | .bool b => if b then "true" else "false"
  | .num n => String.mk (intToChars n)
  | .str s => s
  | .arr xs => jsToStrArr xs
  | .obj _ => "[object Object]"
end

/-- JavaScript property-key coercion (object keys are strings). -/
def keyOf : JsVal → String
  | none => "undefined"
  | some j => jsToStr j

/-- Value of a decimal digit character. -/
def digitVal (c : Char) : Option Nat :=
  if '0' ≤ c ∧ c ≤ '9' then some (c.toNat - 48) else none

/-- Accumulate decimal digits; `none` when the first character is not a
digit. -/
def parseDigitsAux : List Char → Nat → Nat
  | [], acc => acc
  | c :: cs, acc =>
    match digitVal c with
    | some d => parseDigitsAux cs (acc * 10 + d)
    | none => acc

/-- Leading run of decimal digits. -/
def leadingDigits : List Char → List Char
  | [] => []
  | c :: cs => if (digitVal c).isSome then c :: leadingDigits cs else []

/-- JavaScript `parseInt(s, 10)`: skip leading whitespace, optional sign,
then the longest run of decimal digits; `none` models `NaN`. -/
def parseIntJs (s : String) : Option Int :=
  match s.data.dropWhile (fun c => c = ' ' ∨ c = '\t' ∨ c = '\n' ∨ c = '\r') with
  | [] => none
  | c :: rest =>
    if c = '-' then
      if (leadingDigits rest).isEmpty then none
      else some (-(parseDigitsAux (leadingDigits rest) 0 : Int))
    else if c = '+' then
      if (leadingDigits rest).isEmpty then none
      else some ((parseDigitsAux (leadingDigits rest) 0 : Int))
    else
      if (leadingDigits (c :: rest)).isEmpty then none
      else some ((parseDigitsAux (leadingDigits (c :: rest)) 0 : Int))

/-- Canonical array-index keys (`"0"`, `"17"`, …) — JavaScript `for‥in`
enumerates these first, in ascending numeric order. -/
def canonicalNat? (s : String) : Option Nat :=
  match s.data with
  | [] => none
  | cs =>
    if cs.all (fun c => (digitVal c).isSome) ∧ (cs.length = 1 ∨ cs.head? ≠ some '0') then
      some (parseDigitsAux cs 0)
    else none

/-! # A model of `JSON.parse`

A fuelled recursive-descent parser over character lists; `none` models a
thrown `SyntaxError`.  Numbers are modelled as integers (the streams the
claims quantify over carry only integral indices and token counts); a
fractional or exponent part makes the parse fail, which the stream loop
treats like any other malformed line. -/

/-- JSON whitespace. -/
def isWsChar (c : Char) : Bool := c = ' ' ∨ c = '\t' ∨ c = '\n' ∨ c = '\r'

/-- Skip whitespace. -/
def skipWs (cs : List Char) : List Char := cs.dropWhile isWsChar

/-- Hexadecimal digit value. -/
def hexVal (c : Char) : Option Nat :=
  if '0' ≤ c ∧ c ≤ '9' then some (c.toNat - 48)
  else if 'a' ≤ c ∧ c ≤ 'f' then some (c.toNat - 87)
  else if 'A' ≤ c ∧ c ≤ 'F' then some (c.toNat - 55)
  else none

/-- Body of a JSON string literal after the opening quote; returns the
decoded characters and the input after the closing quote. -/
def parseStrBody : List Char → List Char → Option (String × List Char)
  | acc, '"' :: rest => some (String.mk acc.reverse, rest)
  | acc, '\\' :: e :: rest =>
    match e with
    | '"' => parseStrBody ('"' :: acc) rest
    | '\\' => parseStrBody ('\\' :: acc) rest
    | '/' => parseStrBody ('/' :: acc) rest
    | 'n' => parseStrBody ('\n' :: acc) rest
    | 't' => parseStrBody ('\t' :: acc) rest
    | 'r' => parseStrBody ('\r' :: acc) rest
    | 'b' => parseStrBody ('\x08' :: acc) rest
    | 'f' => parseStrBody ('\x0c' :: acc) rest
    | 'u' =>
      match rest with
      | h1 :: h2 :: h3 :: h4 :: rest' =>
        match hexVal h1, hexVal h2, hexVal h3, hexVal h4 with
        | some a, some b, some c, some d =>
          parseStrBody (Char.ofNat (((a * 16 + b) * 16 + c) * 16 + d) :: acc) rest'
        | _, _, _, _ => none
      | _ => none
    | _ => none
  | acc, c :: rest =>
    if c.toNat < 32 then none else parseStrBody (c :: acc) rest
  | _, [] => none

/-- Reverse-append for `JsonList`. -/
def revAppendJL : JsonList → JsonList → JsonList
  | .nil, out => out
  | .cons x xs, out => revAppendJL xs (.cons x out)

/-- Reverse-append for `JsonObj`. -/
def revAppendJO : JsonObj → JsonObj → JsonObj
  | .nil, out => out
  | .cons k v kvs, out => revAppendJO kvs (.cons k v out)

mutual
/-- One JSON value. -/
def parseVal : Nat → List Char → Option (Json × List Char)
  | 0, _ => none
  | fuel + 1, cs =>
    match skipWs cs with
    | 'n' :: 'u' :: 'l' :: 'l' :: rest => some (.null, rest)
    | 't' :: 'r' :: 'u' :: 'e' :: rest => some (.bool true, rest)
    | 'f' :: 'a' :: 'l' :: 's' :: 'e' :: rest => some (.bool false, rest)
    | '"' :: rest =>
      match parseStrBody [] rest with
      | some (s, rest') => some (.str s, rest')
      | none => none
    | '[' :: rest => parseElems fuel (skipWs rest) .nil
    | '{' :: rest => parseMembers fuel (skipWs rest) .nil
    | '-' :: rest =>
      match leadingDigits rest with
      | [] => none
      | ds =>
        match rest.drop ds.length with
        | '.' :: _ => none
        | 'e' :: _ => none
        | 'E' :: _ => none
        | rest' => some (.num (-(parseDigitsAux ds 0 : Int)), rest')
    | rest =>
      match leadingDigits rest with
      | [] => none
      | ds =>
        match rest.drop ds.length with
        | '.' :: _ => none
        | 'e' :: _ => none
        | 'E' :: _ => none
        | rest' => some (.num (parseDigitsAux ds 0 : Int), rest')

/-- Array elements after `[`; `acc` holds the elements parsed so far in
reverse. -/
def parseElems : Nat → List Char → JsonList → Option (Json × List Char)
  | 0, _, _ => none
  | fuel + 1, cs, acc =>
    match cs with
    | ']' :: rest => some (.arr (revAppendJL acc .nil), rest)
    | _ =>
      match parseVal fuel cs with
      | none => none
      | some (v, rest) =>
        match skipWs rest with
        | ',' :: rest' => parseElems fuel (skipWs rest') (.cons v acc)
        | ']' :: rest' => some (.arr (revAppendJL (.cons v acc) .nil), rest')
        | _ => none

/-- Object members after `{`; `acc` holds the fields parsed so far in
reverse. -/
def parseMembers : Nat → List Char → JsonObj → Option (Json × List Char)
  | 0, _, _ => none
  | fuel + 1, cs, acc =>
    match cs with
    | '}' :: rest => some (.obj (revAppendJO acc .nil), rest)
    | '"' :: rest =>
      match parseStrBody [] rest with
      | none => none
      | some (k, rest') =>
        match skipWs rest' with
        | ':' :: rest'' =>
          match parseVal fuel rest'' with
          | none => none
          | some (v, rest3) =>
            match skipWs rest3 with
            | ',' :: rest4 => parseMembers fuel (skipWs rest4) (.cons k v acc)
            | '}' :: rest4 => some (.obj (revAppendJO (.cons k v acc) .nil), rest4)
            | _ => none
        | _ => none
    | _ => none
end

/-- `JSON.parse` on a character list: parse one value and require only
whitespace to remain. -/
def jsonParse (cs : List Char) : Option Json :=
  match parseVal (2 * cs.length + 8) cs with
  | none => none
  | some (v, rest) => if (skipWs rest).isEmpty then some v else none

/-! # `src/transform.ts` -/

/-- JavaScript `typeof v === 'object'` (true for `null` and arrays too). -/
def typeofObject : Json → Bool
  | .null => true
  | .arr _ => true
  | .obj _ => true
  | _ => false

/-- `Array.isArray`. -/
def isArrJ : Json → Bool
  | .arr _ => true
  | _ => false

mutual
/-- `removeUriFormat` (src/transform.ts:230): recursively remove
`format: 'uri'` from JSON schemas.  A node matching
`type: 'string', format: 'uri'` is returned as the rest-spread of its fields
without recursing into them; arrays map; other objects are rebuilt key by
key with the special handling of `properties` / `items` /
`additionalProperties` / `anyOf` / `allOf` / `oneOf` of the source (for a
key with any other name the default branch recurses just the same). -/
def removeUriFormat : Json → Json
  | .null => .null
  | .bool b => .bool b
  | .num n => .num n
  | .str s => .str s
  | .arr xs => .arr (ruList xs)
  | .obj kvs =>
    if kvs.getF "type" = some (.str "string") ∧ kvs.getF "format" = some (.str "uri") then
      .obj (kvs.delKey "format")
    else
      .obj (ruObj kvs)

def ruList : JsonList → JsonList
  | .nil => .nil
  | .cons x xs => .cons (removeUriFormat x) (ruList xs)

def ruObj : JsonObj → JsonObj
  | .nil => .nil
  | .cons k v kvs =>
    .cons k
      (if k = "properties" ∧ typeofObject v then propsResult v
       else if k = "items" ∧ typeofObject v then removeUriFormat v
       else if k = "additionalProperties" ∧ typeofObject v then removeUriFormat v
       else if (k = "anyOf" ∨ k = "allOf" ∨ k = "oneOf") ∧ isArrJ v then anyOfResult v
       else removeUriFormat v)
      (ruObj kvs)

/-- `for (const propKey in schema.properties)` builds a fresh object: over an
object it walks the keys, over an array it walks the index keys (turning the
array into an object!), over `null` it walks nothing. -/
def propsResult : Json → Json
  | .obj props => .obj (ruProps props)
  | .arr xs => .obj (ruPropsArr 0 xs)
  | _ => .obj .nil

def ruProps : JsonObj → JsonObj
  | .nil => .nil
  | .cons pk pv rest => .cons pk (removeUriFormat pv) (ruProps rest)

def ruPropsArr : Nat → JsonList → JsonObj
  | _, .nil => .nil
  | i, .cons x xs => .cons (String.mk (natToChars i)) (removeUriFormat x) (ruPropsArr (i + 1) xs)

/-- The mapped `anyOf`/`allOf`/`oneOf` combinator list (the non-array case
is unreachable: the branch is guarded by `Array.isArray`). -/
def anyOfResult : Json → Json
  | .arr xs => .arr (ruList xs)
  | j => j
end

mutual
/-- No object reachable in the schema matches the
`type: 'string', format: 'uri'` pattern. -/
def noUri : Json → Bool
  | .obj kvs =>
    !(kvs.getF "type" = some (.str "string") ∧ kvs.getF "format" = some (.str "uri")) &&
      noUriO kvs
  | .arr xs => noUriL xs
  | _ => true

def noUriL : JsonList → Bool
  | .nil => true
  | .cons x xs => noUri x && noUriL xs

def noUriO : JsonObj → Bool
  | .nil => true
  | .cons _ v kvs => noUri v && noUriO kvs
end

mutual
/-- No object reachable in the schema binds the key `properties` to an array
or to `null` (the stripper rewrites such a value into an object). -/
def goodProps : Json → Bool
  | .obj kvs => goodPropsO kvs
  | .arr xs => goodPropsL xs
  | _ => true

def goodPropsL : JsonList → Bool
  | .nil => true
  | .cons x xs => goodProps x && goodPropsL xs

def goodPropsO : JsonObj → Bool
  | .nil => true
  | .cons k v kvs =>
    (if k = "properties" then !isArrJ v && !(decide (v = .null)) else true) &&
      goodProps v && goodPropsO kvs
end

/-- The fixed list of OpenAI-only parameters (src/transform.ts:8). -/
def DROP_KEYS : List String :=
  ["n", "presence_penalty", "frequency_penalty", "best_of", "logit_bias", "seed",
   "stream_options", "logprobs", "top_logprobs", "user", "response_format",
   "service_tier", "parallel_tool_calls", "functions", "function_call"]

/-- Index-keyed fields produced by spreading an array. -/
def indexedOfList : Nat → JsonList → JsonObj
  | _, .nil => .nil
  | i, .cons x xs => .cons (String.mk (natToChars i)) x (indexedOfList (i + 1) xs)

/-- Index-keyed fields produced by spreading a string. -/
def indexedOfStr : Nat → List Char → JsonObj
  | _, [] => .nil
  | i, c :: cs => .cons (String.mk (natToChars i)) (.str (String.mk [c])) (indexedOfStr (i + 1) cs)

/-- JavaScript object spread `{...v}`: objects contribute their fields,
arrays and strings their indexed elements, everything else nothing. -/
def spreadObj : JsVal → JsonObj
  | some (.obj kvs) => kvs
  | some (.arr xs) => indexedOfList 0 xs
  | some (.str s) => indexedOfStr 0 s.data
  | _ => .nil

/-- The `for (const key of DROP_KEYS)` loop of `sanitizeRoot`. -/
def dropLoop : List String → JsonObj → List String → JsonObj × List String
  | [], kvs, dropped => (kvs, dropped)
  | k :: ks, kvs, dropped =>
    if kvs.hasKey k then dropLoop ks (kvs.delKey k) (dropped ++ [k])
    else dropLoop ks kvs dropped

/-- `sanitizeRoot` step 1 (src/transform.ts:37): rename `stop` to
`stop_sequences`, wrapping a scalar into a one-element array. -/
def sanitizeStop (kvs : JsonObj) : JsonObj :=
  match kvs.getF "stop" with
  | some v => (kvs.setKey "stop_sequences" (if isArrJ v then v else jarr [v])).delKey "stop"
  | none => kvs

/-- `sanitizeRoot` step 2 (src/transform.ts:44): a truthy `user` moves into
`metadata.user_id` and is recorded as dropped. -/
def sanitizeUser (kvs : JsonObj) : JsonObj × List String :=
  match kvs.getF "user" with
  | some u =>
    if truthy u then
      (((kvs.setKey "metadata"
          (.obj ((spreadObj (kvs.getF "metadata")).setKey "user_id" u))).delKey "user"),
        ["user"])
    else (kvs, [])
  | none => (kvs, [])

/-- `sanitizeRoot` step 4 (src/transform.ts:59): default `max_tokens` to
4096 when it is `null` or absent (`== null`). -/
def ensureMaxTokens (kvs : JsonObj) : JsonObj :=
  match kvs.getF "max_tokens" with
  | none => kvs.setKey "max_tokens" (.num 4096)
  | some .null => kvs.setKey "max_tokens" (.num 4096)
  | some _ => kvs

/-- `sanitizeRoot` (src/transform.ts:33): rename `stop`, fold `user` into
`metadata.user_id`, drop the `DROP_KEYS`, default `max_tokens`; returns the
updated request together with the ordered list of dropped keys. -/
def sanitizeRoot (req : Json) : Json × List String :=
  match req with
  | .obj kvs0 =>
    let step2 := sanitizeUser (sanitizeStop kvs0)
    let step3 := dropLoop DROP_KEYS step2.1 step2.2
    (.obj (ensureMaxTokens step3.1), step3.2)
  | j => (j, [])

/-- `mapToolChoice` (src/transform.ts:91): OpenAI `function_call` to Claude
`tool_choice`. -/
def mapToolChoice (req : Json) : Json :=
  match req with
  | .obj kvs =>
    match kvs.getF "function_call" with
    | none => req
    | some fc =>
      if !truthy fc then req
      else
        let kvs' :=
          match fc with
          | .str s =>
            kvs.setKey "tool_choice" (jobj [("type", .str (if s = "none" then "none" else "auto"))])
          | .obj fkvs =>
            if truthyU (fkvs.getF "name") then
              kvs.setKey "tool_choice"
                (jobj [("type", .str "tool"), ("name", (fkvs.getF "name").getD .null)])
            else kvs
          | _ => kvs
        .obj (kvs'.delKey "function_call")
  | j => j

/-- The inverse direction (src/index.ts:259): Claude block `tool_choice`
back to the flat OpenAI `tool_choice` payload field (run only when the
request's `tool_choice` is truthy; `undefined` models the field staying
unset). -/
def mapToolChoiceToOpenAI (tc : Json) : JsVal :=
  let typeV := propNT tc "type"
  let nameV := propNT tc "name"
  if typeV = some (.str "tool") ∧ truthyU nameV then
    some (jobj [("type", .str "function"),
      ("function", .obj (.cons "name" (nameV.getD .null) .nil))])
  else if typeV = some (.str "none") ∨ typeV = some (.str "auto") then
    typeV
  else none

/-- Object literal whose fields with `undefined` values are dropped (the
shape observable through later property reads and `JSON.stringify`). -/
def objU (l : List (String × JsVal)) : Json :=
  .obj (JsonObj.ofList (l.filterMap (fun kv => kv.2.map (fun v => (kv.1, v)))))

/-- `for‥of` iteration: arrays yield their elements, strings their
characters, anything else throws a `TypeError`. -/
def iterElems : Json → Except Unit (List Json)
  | .arr xs => .ok xs.toList
  | .str s => .ok (s.data.map (fun c => Json.str (String.mk [c])))
  | _ => .error ()

/-- `Array.prototype.join` element coercion (`null`/`undefined` join as
empty strings). -/
def joinElemStr : JsVal → String
  | none => ""
  | some .null => ""
  | some j => jsToStr j

/-- Parse a tool invocation's `arguments`: a string is `JSON.parse`d (outer
`none` = the parse threw, aborting `transformMessages`), anything else is
used as-is. -/
def parseArgs : JsVal → Option JsVal
  | some (.str s) =>
    match jsonParse s.data with
    | some j => some (some j)
    | none => none
  | v => some v

/-- The inner `for (const toolCall of msg.tool_calls)` loop: each entry reads
`toolCall.id`, `toolCall.function.name` and `toolCall.function.arguments`
(throwing — `none` — when `toolCall` is `null` or `function` is missing). -/
def tmToolCalls : List Json → Option (List Json)
  | [] => some []
  | tc :: tcs =>
    match propT (some tc) "id" with
    | .error _ => none
    | .ok idV =>
      match propT (propNT tc "function") "name" with
      | .error _ => none
      | .ok nameV =>
        let fnObj := (propNT tc "function").getD .null
        match parseArgs (propNT fnObj "arguments") with
        | none => none
        | some inputV =>
          match tmToolCalls tcs with
          | none => none
          | some rest =>
            some (objU [("type", some (.str "tool_use")), ("id", idV),
              ("name", nameV), ("input", inputV)] :: rest)

/-- The `for (const msg of req.messages)` loop of `transformMessages`
(src/transform.ts:122).  `fresh` supplies the `Math.random()` suffix for
generated call ids (indexed by how many were drawn so far); the result is
`none` when the body would throw (null message element, `.name` on a missing
`function`, unparsable `arguments`, `for‥of` over a non-iterable) and
otherwise the transformed messages together with the collected system
contents. -/
def tmLoop (fresh : Nat → String) :
    JsonList → List Json → List JsVal → Nat → Option (List Json × List JsVal)
  | .nil, acc, sys, _ => some (acc, sys)
  | .cons msg msgs, acc, sys, ctr =>
    match propT (some msg) "role" with
    | .error _ => none
    | .ok roleV =>
      if roleV = some (.str "system") then
        tmLoop fresh msgs acc (sys ++ [propNT msg "content"]) ctr
      else if roleV = some (.str "function") then
        let tr := jobj [("role", .str "user"),
          ("content", jarr [objU [("type", some (.str "tool_result")),
            ("tool_use_id", jsOr (propNT msg "tool_call_id") (propNT msg "name")),
            ("content", propNT msg "content")]])]
        tmLoop fresh msgs (acc ++ [tr]) sys ctr
      else if roleV = some (.str "assistant") ∧ truthyU (propNT msg "function_call") then
        let fc := (propNT msg "function_call").getD .null
        let textPart : List Json :=
          if truthyU (propNT msg "content") then
            [jobj [("type", .str "text"), ("text", (propNT msg "content").getD .null)]]
          else []
        let idV := propNT fc "id"
        let idCtr : Json × Nat :=
          if truthyU idV then (idV.getD .null, ctr)
          else (.str ("call_" ++ fresh ctr), ctr + 1)
        match parseArgs (propNT fc "arguments") with
        | none => none
        | some inputV =>
          let tu := objU [("type", some (.str "tool_use")), ("id", some idCtr.1),
            ("name", propNT fc "name"), ("input", inputV)]
          let tr := jobj [("role", .str "assistant"), ("content", jarr (textPart ++ [tu]))]
          tmLoop fresh msgs (acc ++ [tr]) sys idCtr.2
      else if roleV = some (.str "assistant") ∧ truthyU (propNT msg "tool_calls") then
        let textPart : List Json :=
          if truthyU (propNT msg "content") then
            [jobj [("type", .str "text"), ("text", (propNT msg "content").getD .null)]]
          else []
        match iterElems ((propNT msg "tool_calls").getD .null) with
        | .error _ => none
        | .ok elems =>
          match tmToolCalls elems with
          | none => none
          | some tus =>
            let tr := jobj [("role", .str "assistant"), ("content", jarr (textPart ++ tus))]
            tmLoop fresh msgs (acc ++ [tr]) sys ctr
      else if roleV = some (.str "tool") then
        let tr := jobj [("role", .str "user"),
          ("content", jarr [objU [("type", some (.str "tool_result")),
            ("tool_use_id", propNT msg "tool_call_id"),
            ("content", propNT msg "content")]])]
        tmLoop fresh msgs (acc ++ [tr]) sys ctr
      else
        tmLoop fresh msgs (acc ++ [msg]) sys ctr

/-- `transformMessages` (src/transform.ts:116): extract `system` messages
into one blank-line-joined string, rewrite `function`/`tool`/tool-calling
messages, pass everything else through.  `none` models a thrown exception. -/
def transformMessages (fresh : Nat → String) (req : Json) : Option Json :=
  match req with
  | .obj kvs =>
    match kvs.getF "messages" with
    | some (.arr msgs) =>
      match tmLoop fresh msgs [] [] 0 with
      | none => none
      | some res =>
        let kvs' :=
          if res.2.length > 0 then
            kvs.setKey "system" (.str (String.intercalate "\n\n" (res.2.map joinElemStr)))
          else kvs
        some (.obj (kvs'.setKey "messages" (jarr res.1)))
    | _ => some req
  | j => some j

/-! # The streaming re-emitter (src/index.ts:391–662)

One `sendSSE(event, data)` call is modelled as an `Event`: the event name
together with the JSON payload.  `Ctx` carries the per-request generated
message id, the upstream model name, and the successive `Date.now()`
readings used for generated tool ids (indexed by how many were drawn so
far), so that the embedded machine is a deterministic function of the
upstream bytes. -/

/-- One emitted SSE event: name and JSON payload. -/
abbrev Event := String × Json

/-- Per-request environment of the streaming handler. -/
structure Ctx where
  msgId : String
  model : String
  now : Nat → String

/-- The local mutable state of the streaming loop (src/index.ts:401,
431–440), minus the line buffer which lives at the chunk layer. -/
structure SState where
  isSucceeded : Bool
  accumulatedContent : String
  accumulatedReasoning : String
  usage : Option Json
  textBlockStarted : Bool
  encounteredToolCall : Bool
  toolCallAccumulators : List (String × String)
  nowCtr : Nat
deriving DecidableEq

/-- Initial stream state. -/
def initStreamState : SState :=
  { isSucceeded := false, accumulatedContent := "", accumulatedReasoning := "",
    usage := none, textBlockStarted := false, encounteredToolCall := false,
    toolCallAccumulators := [], nowCtr := 0 }

/-- Assoc-list lookup for the tool-call accumulators (JS object keyed by the
coerced index). -/
def lookupS : List (String × String) → String → Option String
  | [], _ => none
  | (k, v) :: rest, key => if k = key then some v else lookupS rest key

/-- Assoc-list update in place. -/
def setS : List (String × String) → String → String → List (String × String)
  | [], key, v => [(key, v)]
  | (k, w) :: rest, key, v =>
    if k = key then (k, v) :: rest else (k, w) :: setS rest key v

/-- `message_start` payload (src/index.ts:409). -/
def evMessageStart (msgId model : String) : Event :=
  ("message_start", jobj [("type", .str "message_start"),
    ("message", jobj [("id", .str msgId), ("type", .str "message"),
      ("role", .str "assistant"), ("model", .str model), ("content", jarr []),
      ("stop_reason", .null), ("stop_sequence", .null),
      ("usage", jobj [("input_tokens", .num 0), ("output_tokens", .num 0)])])])

/-- `ping` (src/index.ts:427). -/
def evPing : Event := ("ping", jobj [("type", .str "ping")])

/-- Text `content_block_start` at index 0 (src/index.ts:525, 576, 597). -/
def evTextBlockStart : Event :=
  ("content_block_start", jobj [("type", .str "content_block_start"), ("index", .num 0),
    ("content_block", jobj [("type", .str "text"), ("text", .str "")])])

/-- Tool-use `content_block_start` (src/index.ts:548); `undefined` fields
disappear from the serialized frame. -/
def evToolBlockStart (idx toolId toolName : JsVal) : Event :=
  ("content_block_start", objU [("type", some (.str "content_block_start")), ("index", idx),
    ("content_block", some (objU [("type", some (.str "tool_use")), ("id", toolId),
      ("name", toolName), ("input", some (jobj []))]))])

/-- `input_json_delta` (src/index.ts:563). -/
def evToolDelta (idx : JsVal) (pj : Json) : Event :=
  ("content_block_delta", objU [("type", some (.str "content_block_delta")), ("index", idx),
    ("delta", some (jobj [("type", .str "input_json_delta"), ("partial_json", pj)]))])

/-- `text_delta` at index 0 (src/index.ts:586). -/
def evTextDelta (t : Json) : Event :=
  ("content_block_delta", jobj [("type", .str "content_block_delta"), ("index", .num 0),
    ("delta", jobj [("type", .str "text_delta"), ("text", t)])])

/-- `thinking_delta` at index 0 (src/index.ts:607). -/
def evThinkingDelta (t : Json) : Event :=
  ("content_block_delta", jobj [("type", .str "content_block_delta"), ("index", .num 0),
    ("delta", jobj [("type", .str "thinking_delta"), ("thinking", t)])])

/-- `content_block_stop` (src/index.ts:470, 476). -/
def evBlockStop (idx : Json) : Event :=
  ("content_block_stop", jobj [("type", .str "content_block_stop"), ("index", idx)])

/-- `x || 0` for the usage counters. -/
def jsOrZero (v : JsVal) : Json := if truthyU v then v.getD (.num 0) else .num 0

/-- The `usage` field of `message_delta` (src/index.ts:487–495). -/
def usagePayload : Option Json → Json
  | some uj => jobj [("input_tokens", jsOrZero (propNT uj "prompt_tokens")),
      ("output_tokens", jsOrZero (propNT uj "completion_tokens"))]
  | none => jobj [("input_tokens", .num 0), ("output_tokens", .num 0)]

/-- `message_delta` (src/index.ts:481). -/
def evMessageDelta (stopReason : String) (u : Option Json) : Event :=
  ("message_delta", jobj [("type", .str "message_delta"),
    ("delta", jobj [("stop_reason", .str stopReason), ("stop_sequence", .null)]),
    ("usage", usagePayload u)])

/-- `message_stop` (src/index.ts:497). -/
def evMessageStop : Event := ("message_stop", jobj [("type", .str "message_stop")])

/-- `sendSuccessMessage` (src/index.ts:404): emit `message_start` + `ping`
once. -/
def sendSuccessMessage (ctx : Ctx) (st : SState) : SState × List Event :=
  if st.isSucceeded then (st, [])
  else ({ st with isSucceeded := true }, [evMessageStart ctx.msgId ctx.model, evPing])

/-- `parsed.choices[0]`: throws on `null`/`undefined`, indexes arrays,
strings and objects, yields `undefined` otherwise. -/
def index0 : JsVal → Except Unit JsVal
  | none => .error ()
  | some .null => .error ()
  | some (.arr .nil) => .ok none
  | some (.arr (.cons x _)) => .ok (some x)
  | some (.str s) =>
    .ok (match s.data with
      | [] => none
      | c :: _ => some (.str (String.mk [c])))
  | some (.obj kvs) => .ok (kvs.getF "0")
  | some _ => .ok none

/-- One `toolCall` of the `delta.tool_calls` loop (src/index.ts:540–571).
`.error` models an exception escaping the loop body (caught by the inner
catch, with the effects so far kept). -/
def processToolCall (ctx : Ctx) (st0 : SState) (tc : Json) :
    Except (SState × List Event) (SState × List Event) :=
  let st := { st0 with encounteredToolCall := true }
  match propT (some tc) "index" with
  | .error _ => .error (st, [])
  | .ok idxV =>
    let key := keyOf idxV
    let startRes : SState × List Event :=
      if (lookupS st.toolCallAccumulators key).isNone then
        let st1 := { st with toolCallAccumulators := st.toolCallAccumulators ++ [(key, "")] }
        let idRaw := propNT tc "id"
        let idCtr : JsVal × Nat :=
          if truthyU idRaw then (idRaw, st1.nowCtr)
          else (some (.str ("tool_" ++ ctx.now st1.nowCtr ++ "_" ++ keyOf idxV)), st1.nowCtr + 1)
        let toolName := jsOr (optChain (propNT tc "function") "name") (propNT tc "name")
        ({ st1 with nowCtr := idCtr.2 }, [evToolBlockStart idxV idCtr.1 toolName])
      else (st, [])
    let st2 := startRes.1
    let deltaArgsV := jsOr (optChain (propNT tc "function") "arguments")
      (jsOr (propNT tc "arguments") (some (.str "")))
    if truthyU deltaArgsV then
      let dj := deltaArgsV.getD .null
      let prev := (lookupS st2.toolCallAccumulators key).getD ""
      .ok ({ st2 with toolCallAccumulators := setS st2.toolCallAccumulators key (prev ++ jsToStr dj) },
        startRes.2 ++ [evToolDelta idxV dj])
    else .ok (st2, startRes.2)

/-- The `for (const toolCall of delta.tool_calls)` loop; a thrown body stops
the loop but keeps everything already emitted. -/
def toolCallsLoop (ctx : Ctx) : SState → List Event → List Json → SState × List Event
  | st, evs, [] => (st, evs)
  | st, evs, tc :: tcs =>
    match processToolCall ctx st tc with
    | .error r => (r.1, evs ++ r.2)
    | .ok r => toolCallsLoop ctx r.1 (evs ++ r.2) tcs

/-- The `finish_reason`-with-empty-delta handling (src/index.ts:521–536):
open an empty text block when nothing has been opened yet. -/
def emptyFinishBlock (st2 : SState) (choice : Json) : SState × List Event :=
  if truthyU (propNT choice "finish_reason")
      ∧ ¬truthyU (optChain (propNT choice "delta") "content")
      ∧ ¬truthyU (optChain (propNT choice "delta") "tool_calls") then
    if ¬st2.textBlockStarted ∧ ¬st2.encounteredToolCall then
      ({ st2 with textBlockStarted := true }, [evTextBlockStart])
    else (st2, [])
  else (st2, [])

/-- Open the single text block at index 0 if it is not open yet
(src/index.ts:574–584 and 595–605). -/
def openTextBlock (st : SState) : SState × List Event :=
  if ¬st.textBlockStarted then ({ st with textBlockStarted := true }, [evTextBlockStart])
  else (st, [])

/-- The per-frame dispatch on one defined, non-`null` `choice`
(src/index.ts:521–615): the empty-frame text block and the tool-call /
content / reasoning delta handling, returning the events it emits itself. -/
def processDelta (ctx : Ctx) (st2 : SState) (choice : Json) : SState × List Event :=
      let deltaV := propNT choice "delta"
      let deltaProp : String → JsVal := fun k =>
        match deltaV with
        | some d => propNT d k
        | none => none
      let stage3 := emptyFinishBlock st2 choice
      let st3 := stage3.1
      let evB := stage3.2
      if truthyU deltaV ∧ truthyU (deltaProp "tool_calls") then
        match iterElems ((deltaProp "tool_calls").getD .null) with
        | .error _ => (st3, evB)
        | .ok elems =>
          let r := toolCallsLoop ctx st3 [] elems
          (r.1, evB ++ r.2)
      else if truthyU deltaV ∧ truthyU (deltaProp "content") then
        let stage4 := openTextBlock st3
        let contentJ := (deltaProp "content").getD .null
        let st5 := { stage4.1 with
          accumulatedContent := stage4.1.accumulatedContent ++ jsToStr contentJ }
        (st5, evB ++ stage4.2 ++ [evTextDelta contentJ])
      else if truthyU deltaV ∧ truthyU (deltaProp "reasoning") then
        let stage4 := openTextBlock st3
        let reasonJ := (deltaProp "reasoning").getD .null
        let st5 := { stage4.1 with
          accumulatedReasoning := stage4.1.accumulatedReasoning ++ jsToStr reasonJ }
        (st5, evB ++ stage4.2 ++ [evThinkingDelta reasonJ])
      else (st3, evB)

/-- The `choices[0]` access and the `null`/`undefined` guards around the
dispatch (src/index.ts:519–521): reading `finish_reason` off a missing
choice throws, ending the line. -/
def processChoice (ctx : Ctx) (st2 : SState) (parsed : Json) : SState × List Event :=
  match index0 (propNT parsed "choices") with
  | .error _ => (st2, [])
  | .ok choiceV =>
    match choiceV with
    | none => (st2, [])
    | some .null => (st2, [])
    | some choice => processDelta ctx st2 choice

/-- The per-line `try` body from `sendSuccessMessage` onward
(src/index.ts:517–615): the success message then the dispatch, with the
dispatch events following the success events. -/
def processAfterUsage (ctx : Ctx) (st1 : SState) (parsed : Json) : SState × List Event :=
  let succ := sendSuccessMessage ctx st1
  let r := processChoice ctx succ.1 parsed
  (r.1, succ.2 ++ r.2)

/-- The body of the per-line `try` (src/index.ts:506–615) after a successful
`JSON.parse`: the embedded-error check, the usage capture, then
`processAfterUsage`.  Every point where the JavaScript would throw returns
the state and events accumulated so far — the inner `catch` just moves on to
the next line, so thrown errors (including the deliberate `throw` for an
embedded upstream error object) keep prior effects and emit nothing
further. -/
def processParsed (ctx : Ctx) (st0 : SState) (parsed : Json) : SState × List Event :=
  match propT (some parsed) "error" with
  | .error _ => (st0, [])
  | .ok errV =>
    if truthyU errV then (st0, [])
    else
      let st1 := if truthyU (propNT parsed "usage") then
          { st0 with usage := propNT parsed "usage" } else st0
      processAfterUsage ctx st1 parsed

/-- Ascending insertion for canonical index keys. -/
def insertSorted (p : Nat × String) : List (Nat × String) → List (Nat × String)
  | [] => [p]
  | q :: rest => if p.1 ≤ q.1 then p :: q :: rest else q :: insertSorted p rest

/-- `for (const idx in toolCallAccumulators)` enumeration order: canonical
array-index keys ascending first, then the remaining keys in insertion
order. -/
def forInKeys (accs : List (String × String)) : List String :=
  let ks := accs.map (fun kv => kv.1)
  ((ks.filterMap (fun k => (canonicalNat? k).map (fun n => (n, k)))).foldl
      (fun acc p => insertSorted p acc) []).map (fun p => p.2)
    ++ ks.filter (fun k => (canonicalNat? k).isNone)

/-- The `[DONE]` finalization (src/index.ts:466–503): close the open blocks,
send `message_delta` with the stop reason and usage, then `message_stop`.
`parseInt` of a non-numeric key would be `NaN`, which serializes as `null`. -/
def finalizeDone (st : SState) : List Event :=
  (if st.encounteredToolCall then
    (forInKeys st.toolCallAccumulators).map (fun k =>
      evBlockStop (match parseIntJs k with | some n => .num n | none => .null))
   else if st.textBlockStarted then [evBlockStop (.num 0)]
   else [])
  ++ [evMessageDelta (if st.encounteredToolCall then "tool_use" else "end_turn") st.usage,
    evMessageStop]

/-- Trim both ends (JavaScript `String.prototype.trim`). -/
def trimChars (cs : List Char) : List Char :=
  ((cs.dropWhile isWsChar).reverse.dropWhile isWsChar).reverse

/-- Result of processing one complete line. -/
inductive StepRes where
  | cont (st : SState) (evs : List Event)
  | finished (evs : List Event)
deriving DecidableEq

/-- The `dataStr` of a line (src/index.ts:463–465): `none` for blank or
non-`data:` lines, otherwise the trimmed line with the leading `data:` and
following whitespace removed. -/
def linePayload (line : List Char) : Option (List Char) :=
  let trimmed := trimChars line
  if trimmed = [] then none
  else if ¬ List.isPrefixOf ("data:".data) trimmed then none
  else some ((trimmed.drop 5).dropWhile isWsChar)

/-- One iteration of `for (const line of lines)` (src/index.ts:462–619):
skip blanks and non-`data:` lines, finalize on the `[DONE]` sentinel
(after which the handler returns), otherwise parse and process; a parse
failure skips the line. -/
def stepLine (ctx : Ctx) (st : SState) (line : List Char) : StepRes :=
  match linePayload line with
  | none => .cont st []
  | some ds =>
    if ds = "[DONE]".data then .finished (finalizeDone st)
    else
      match jsonParse ds with
      | none => .cont st []
      | some parsed =>
        let r := processParsed ctx st parsed
        .cont r.1 r.2

/-- Result of running the loop over a list of lines: still reading, or
closed by the `[DONE]` return path. -/
inductive RunRes where
  | running (st : SState) (evs : List Event)
  | closedDone (evs : List Event)
deriving DecidableEq

/-- Process complete lines in order, accumulating emitted events;
`[DONE]` stops everything (the source `return`s out of the read loop). -/
def runLines (ctx : Ctx) : SState → List Event → List (List Char) → RunRes
  | st, evs, [] => .running st evs
  | st, evs, l :: ls =>
    match stepLine ctx st l with
    | .cont st' e => runLines ctx st' (evs ++ e) ls
    | .finished e => .closedDone (evs ++ e)

/-- The streaming re-emitter at frame granularity: the upstream lines are
delivered whole, the machine starting from the initial state. -/
def runSSE (ctx : Ctx) (lines : List String) : RunRes :=
  runLines ctx initStreamState [] (lines.map String.data)

/-- Events of a run. -/
def eventsOfR : RunRes → List Event
  | .running _ evs => evs
  | .closedDone evs => evs

/-! ## The chunk layer (src/index.ts:443–460): partial-line buffering -/

/-- `buffer.split('\n')` — the full split, one more part than newlines. -/
def splitNlAll : List Char → List (List Char)
  | [] => [[]]
  | c :: cs =>
    if c = '\n' then [] :: splitNlAll cs
    else
      match splitNlAll cs with
      | l :: ls => (c :: l) :: ls
      | [] => [[c]]

/-- `buffer.endsWith('\n')`. -/
def endsWithNl (cs : List Char) : Bool := cs.getLast? = some '\n'

/-- Phase of the chunked stream processor: still reading (with the residual
line buffer), or closed by `[DONE]`. -/
inductive CPhase where
  | running (st : SState) (buffer : List Char) (evs : List Event)
  | closedDone (evs : List Event)
deriving DecidableEq

/-- Feed one decoded chunk (src/index.ts:446–460): append to the buffer,
split on newlines, keep an unterminated tail as the new buffer, and run the
line loop on the complete lines. -/
def feedChunk (ctx : Ctx) (p : CPhase) (chunk : List Char) : CPhase :=
  match p with
  | .closedDone evs => .closedDone evs
  | .running st buf evs =>
    let buffer := buf ++ chunk
    let lines := splitNlAll buffer
    let pl : List (List Char) × List Char :=
      if ¬ endsWithNl buffer then (lines.dropLast, (lines.getLast?).getD [])
      else (lines, [])
    match runLines ctx st evs pl.1 with
    | .running st' evs' => .running st' pl.2 evs'
    | .closedDone evs' => .closedDone evs'

/-- The whole chunked streaming path: fold the chunks from the empty buffer.
A final `running` phase models the upstream ending without `[DONE]` (the
source then parses any leftover buffer only for debug output, emits nothing,
and closes the stream in `finally`). -/
def processChunks (ctx : Ctx) (chunks : List (List Char)) : CPhase :=
  chunks.foldl (feedChunk ctx) (.running initStreamState [] [])

/-- Events of a phase. -/
def eventsOfC : CPhase → List Event
  | .running _ _ evs => evs
  | .closedDone evs => evs

/-! ## The byte layer: `decoder.decode(value)` without `stream: true` -/

/-- Lossy UTF-8 decoding of one chunk in isolation — the semantics of
calling `TextDecoder.decode` per chunk with no carry-over: a multi-byte
sequence split across chunks decodes to replacement characters. -/
def utf8DecodeAux : Nat → List Nat → List Char
  | 0, _ => []
  | _, [] => []
  | fuel + 1, b :: rest =>
    if b < 0x80 then Char.ofNat b :: utf8DecodeAux fuel rest
    else if 0xC2 ≤ b ∧ b ≤ 0xDF then
      match rest with
      | b2 :: r2 =>
        if 0x80 ≤ b2 ∧ b2 ≤ 0xBF then
          Char.ofNat ((b - 0xC0) * 64 + (b2 - 0x80)) :: utf8DecodeAux fuel r2
        else Char.ofNat 0xFFFD :: utf8DecodeAux fuel rest
      | [] => [Char.ofNat 0xFFFD]
    else if 0xE0 ≤ b ∧ b ≤ 0xEF then
      match rest with
      | b2 :: b3 :: r3 =>
        if (0x80 ≤ b2 ∧ b2 ≤ 0xBF) ∧ (0x80 ≤ b3 ∧ b3 ≤ 0xBF) then
          Char.ofNat (((b - 0xE0) * 64 + (b2 - 0x80)) * 64 + (b3 - 0x80)) :: utf8DecodeAux fuel r3
        else Char.ofNat 0xFFFD :: utf8DecodeAux fuel rest
      | _ => [Char.ofNat 0xFFFD]
    else if 0xF0 ≤ b ∧ b ≤ 0xF4 then
      match rest with
      | b2 :: b3 :: b4 :: r4 =>
        if (0x80 ≤ b2 ∧ b2 ≤ 0xBF) ∧ (0x80 ≤ b3 ∧ b3 ≤ 0xBF) ∧ (0x80 ≤ b4 ∧ b4 ≤ 0xBF) then
          Char.ofNat ((((b - 0xF0) * 64 + (b2 - 0x80)) * 64 + (b3 - 0x80)) * 64 + (b4 - 0x80))
            :: utf8DecodeAux fuel r4
        else Char.ofNat 0xFFFD :: utf8DecodeAux fuel rest
      | _ => [Char.ofNat 0xFFFD]
    else Char.ofNat 0xFFFD :: utf8DecodeAux fuel rest

/-- Decode one byte chunk. -/
def utf8DecodeLossy (bytes : List Nat) : List Char :=
  utf8DecodeAux (bytes.length + 1) bytes

/-- The streaming path from raw upstream byte chunks: each chunk is decoded
independently (src/index.ts:447), then fed to the buffered line loop. -/
def processBytes (ctx : Ctx) (chunks : List (List Nat)) : CPhase :=
  processChunks ctx (chunks.map utf8DecodeLossy)

/-! # Observables on emitted event sequences -/

/-- The `index` field of an event payload. -/
def payloadIndex (e : Event) : Option Json :=
  match e.2 with
  | .obj kvs => kvs.getF "index"
  | _ => none

/-- `content_block_start` with the given index value. -/
def isStartB (e : Event) (i : Json) : Bool :=
  decide (e.1 = "content_block_start") && decide (payloadIndex e = some i)

/-- `content_block_delta` with the given index value. -/
def isDeltaB (e : Event) (i : Json) : Bool :=
  decide (e.1 = "content_block_delta") && decide (payloadIndex e = some i)

/-- `content_block_stop` with the given index value. -/
def isStopB (e : Event) (i : Json) : Bool :=
  decide (e.1 = "content_block_stop") && decide (payloadIndex e = some i)

/-- The event at position `p` satisfies `f`. -/
def atIs (evs : List Event) (p : Nat) (f : Event → Bool) : Bool :=
  ((evs.get? p).map f).getD false

/-- Number of `content_block_stop` events with the given index. -/
def countStops (evs : List Event) (i : Json) : Nat :=
  (evs.filter (fun e => isStopB e i)).length

/-- Number of events with the given name. -/
def countName (evs : List Event) (n : String) : Nat :=
  (evs.filter (fun e => decide (e.1 = n))).length

/-- The last event of the sequence is `message_stop`. -/
def lastIsMessageStop (evs : List Event) : Prop :=
  ∃ e, evs.getLast? = some e ∧ e.1 = "message_stop"

/-- The block-ordering property exactly as claim C2 states it: every
`content_block_start` for an index precedes all `content_block_delta`
events for that index, those deltas all precede that index's single
`content_block_stop`, and `message_stop` is the final event. -/
def claimBlockOrdering (evs : List Event) : Prop :=
  (∀ p q (i : Json), atIs evs p (fun e => isStartB e i) → atIs evs q (fun e => isDeltaB e i) →
    p < q)
  ∧ (∀ p q (i : Json), atIs evs p (fun e => isDeltaB e i) → atIs evs q (fun e => isStopB e i) →
    p < q)
  ∧ (∀ i : Json, (∃ p, atIs evs p (fun e => isStartB e i) = true) → countStops evs i = 1)
  ∧ lastIsMessageStop evs

/-! # Well-formed upstream frames

The universal streaming theorems quantify over streams of well-formed
chat-completion chunks: whenever a frame's `delta.tool_calls` is truthy it
is an array of objects carrying an integral `index` (the upstream wire
format).  Everything else — usage, finish reasons, content strings, error
frames, malformed lines, blank lines — is unconstrained. -/

/-- One entry of `delta.tool_calls`. -/
def wfToolEntry : Json → Bool
  | .obj kvs =>
    match kvs.getF "index" with
    | some (.num _) => true
    | _ => false
  | _ => false

/-- All entries. -/
def wfToolList : JsonList → Bool
  | .nil => true
  | .cons tc tcs => wfToolEntry tc && wfToolList tcs

/-- A well-formed parsed frame (only the shape of a truthy
`choices[0].delta.tool_calls` is constrained). -/
def wfFrame (f : Json) : Bool :=
  match index0 (propNT f "choices") with
  | .error _ => true
  | .ok none => true
  | .ok (some choice) =>
    match propNT choice "delta" with
    | some (.obj dkvs) =>
      match dkvs.getF "tool_calls" with
      | some (.arr xs) => wfToolList xs
      | some (.str s) => decide (s = "")
      | some _ => true
      | none => true
    | _ => true

/-- A well-formed upstream line: blank, non-`data:`, the sentinel,
unparsable, or carrying a well-formed frame. -/
def wfLine (l : List Char) : Bool :=
  match linePayload l with
  | none => true
  | some ds =>
    match jsonParse ds with
    | none => true
    | some f => wfFrame f

/-- The `[DONE]` sentinel line. -/
def isDoneLine (l : List Char) : Bool := decide (linePayload l = some ("[DONE]".data))

/-- A non-sentinel `data:` line whose payload parses to a non-`null` value
with no truthy `error` — exactly the lines on which the loop reaches
`sendSuccessMessage`. -/
def goodFrameLine (l : List Char) : Bool :=
  match linePayload l with
  | none => false
  | some ds =>
    if ds = "[DONE]".data then false
    else
      match jsonParse ds with
      | none => false
      | some f =>
        match propT (some f) "error" with
        | .error _ => false
        | .ok errV => !truthyU errV

/-! # Concrete inputs used by the individual claims -/

/-- A fixed per-request environment for concrete runs. -/
def ctx0 : Ctx := { msgId := "msg_test", model := "gpt-test", now := fun _ => "0" }

/-- C1: an upstream stream whose second frame is a mid-stream error object,
followed by a content delta and the sentinel. -/
def exC1lines : List String :=
  [ "data: \x7b\"error\":\x7b\"message\":\"boom\"\x7d\x7d"
  , "data: \x7b\"choices\":[\x7b\"delta\":\x7b\"content\":\"hi\"\x7d\x7d]\x7d"
  , "data: [DONE]" ]

/-- C2 counterexample: a text delta first, then tool calls at the two
distinct indices 0 and 1 (upstream tool indices start at 0, colliding with
the proxy's text block index 0). -/
def exC2lines : List String :=
  [ "data: \x7b\"choices\":[\x7b\"delta\":\x7b\"content\":\"hi\"\x7d\x7d]\x7d"
  , "data: \x7b\"choices\":[\x7b\"delta\":\x7b\"tool_calls\":[\x7b\"index\":0,\"id\":\"a\",\"function\":\x7b\"name\":\"f\",\"arguments\":\"\x7b\x7d\"\x7d\x7d,\x7b\"index\":1,\"id\":\"b\",\"function\":\x7b\"name\":\"g\",\"arguments\":\"\x7b\x7d\"\x7d\x7d]\x7d\x7d]\x7d"
  , "data: [DONE]" ]

/-- C2 witness stream for the amended theorem: a text delta and tool calls
at the two distinct indices 1 and 2, sentinel-terminated. -/
def exC2wlines : List String :=
  [ "data: \x7b\"choices\":[\x7b\"delta\":\x7b\"content\":\"hi\"\x7d\x7d]\x7d"
  , "data: \x7b\"choices\":[\x7b\"delta\":\x7b\"tool_calls\":[\x7b\"index\":1,\"id\":\"a\",\"function\":\x7b\"name\":\"f\",\"arguments\":\"\x7b\x7d\"\x7d\x7d,\x7b\"index\":2,\"id\":\"b\",\"function\":\x7b\"name\":\"g\",\"arguments\":\"\x7b\x7d\"\x7d\x7d]\x7d\x7d]\x7d"
  , "data: [DONE]" ]

/-- C3: tool-call argument fragments `{"x":` and `1}` delivered across two
frames for tool-call index 0. -/
def exC3lines : List String :=
  [ "data: \x7b\"choices\":[\x7b\"delta\":\x7b\"tool_calls\":[\x7b\"index\":0,\"id\":\"call_1\",\"function\":\x7b\"name\":\"f\",\"arguments\":\"\x7b\\\"x\\\":\"\x7d\x7d]\x7d\x7d]\x7d"
  , "data: \x7b\"choices\":[\x7b\"delta\":\x7b\"tool_calls\":[\x7b\"index\":0,\"function\":\x7b\"arguments\":\"1\x7d\"\x7d\x7d]\x7d\x7d]\x7d"
  , "data: [DONE]" ]

/-- The `partial_json` texts of the emitted `input_json_delta` events, in
order. -/
def argDeltaTexts (evs : List Event) : List String :=
  evs.filterMap (fun e =>
    if e.1 = "content_block_delta" then
      match e.2 with
      | .obj kvs =>
        match kvs.getF "delta" with
        | some (.obj dkvs) =>
          if dkvs.getF "type" = some (.str "input_json_delta") then
            match dkvs.getF "partial_json" with
            | some (.str s) => some s
            | _ => none
          else none
        | _ => none
      | _ => none
    else none)

/-- The `text` values of the emitted `text_delta` events, in order. -/
def textDeltaTexts (evs : List Event) : List String :=
  evs.filterMap (fun e =>
    if e.1 = "content_block_delta" then
      match e.2 with
      | .obj kvs =>
        match kvs.getF "delta" with
        | some (.obj dkvs) =>
          if dkvs.getF "type" = some (.str "text_delta") then
            match dkvs.getF "text" with
            | some (.str s) => some s
            | _ => none
          else none
        | _ => none
      | _ => none
    else none)

/-- C4: the bytes of a frame whose content carries the two-byte UTF-8
character `é`, split so that the two bytes land in different chunks. -/
def exC4pre : List Nat := "data: \x7b\"choices\":[\x7b\"delta\":\x7b\"content\":\"".data.map Char.toNat

/-- C4: the bytes closing the frame, plus the sentinel line. -/
def exC4post : List Nat := ("\"\x7d\x7d]\x7d\n".data.map Char.toNat) ++ ("data: [DONE]\n".data.map Char.toNat)

/-- C5 counterexample schema: a `format: 'uri'` node whose remaining fields
contain a nested `format: 'uri'` node — the early return copies the rest
verbatim, so one pass leaves the inner occurrence behind. -/
def exC5schema : Json :=
  jobj [("type", .str "string"), ("format", .str "uri"),
    ("default", jobj [("type", .str "string"), ("format", .str "uri")])]

/-- C5 witness schema: a realistic nested tool schema whose stripped form is
free of `uri` patterns and of array/null-valued `properties`. -/
def exC5wschema : Json :=
  jobj [("type", .str "object"),
    ("properties", jobj [
      ("url", jobj [("type", .str "string"), ("format", .str "uri")]),
      ("items", jobj [("type", .str "array"),
        ("items", jobj [("type", .str "string"), ("format", .str "uri")])])]),
    ("anyOf", jarr [jobj [("required", jarr [.str "url"])]])]

/-- C6 witness request. -/
def exC6req : JsonObj :=
  JsonObj.ofList [("model", .str "m"), ("presence_penalty", .num 1),
    ("user", .str "u7"), ("temperature", .num 1)]

/-- C7: the fixed first and last source messages. -/
def exC7sysA : Json := jobj [("role", .str "system"), ("content", .str "a")]

/-- C7: the trailing system message. -/
def exC7sysB : Json := jobj [("role", .str "system"), ("content", .str "b")]

/-- C7 witness middle message. -/
def exC7user : JsonObj := JsonObj.ofList [("role", .str "user"), ("content", .str "hello")]

/-- C9: witness stream with one good frame before the sentinel. -/
def exC9lines : List String :=
  [ "data: \x7b\"choices\":[\x7b\"delta\":\x7b\"content\":\"hi\"\x7d\x7d]\x7d"
  , "data: [DONE]" ]

/-- A pure content-block event (start or delta). -/
def isContentEv (e : Event) : Bool :=
  e.1 == "content_block_start" || e.1 == "content_block_delta"

/-- The `message_start`/`ping` pair opens the event sequence and occurs
exactly once. -/
def pairFirst (ctx : Ctx) (evs : List Event) : Prop :=
  evs.get? 0 = some (evMessageStart ctx.msgId ctx.model) ∧
  evs.get? 1 = some evPing ∧
  countName evs "message_start" = 1 ∧ countName evs "ping" = 1

/-- Loop invariant for the `message_start` bookkeeping: before the first
successful frame nothing has been emitted; afterwards the pair heads the
sequence. -/
def C9Inv (ctx : Ctx) (st : SState) (evs : List Event) : Prop :=
  (st.isSucceeded = false → evs = []) ∧ (st.isSucceeded = true → pairFirst ctx evs)

/-- What holds of any closed or still-open event sequence: at most one
`message_start` and one `ping`, and when a `message_start` exists the pair
heads the sequence. -/
def C9Closed (ctx : Ctx) (evs : List Event) : Prop :=
  countName evs "message_start" ≤ 1 ∧ countName evs "ping" ≤ 1 ∧
  (1 ≤ countName evs "message_start" → pairFirst ctx evs)

/-- Prepend a carry-over fragment to the first part of a split. -/
def joinHead (t : List Char) : List (List Char) → List (List Char)
  | [] => [t]
  | l :: ls => (t ++ l) :: ls

/-- The whole byte stream with the two-byte character in the middle. -/
def exC4all : List Nat := exC4pre ++ [0xC3, 0xA9] ++ exC4post

/-- First chunk of a split cutting the character in half. -/
def exC4b1 : List Nat := exC4pre ++ [0xC3]

/-- Second chunk of that split. -/
def exC4b2 : List Nat := 0xA9 :: exC4post

/-- The indices for which a `content_block_start` is recorded in the state:
index 0 once the text block is open, and every numeric index whose rendered
key sits in the tool-call accumulators. -/
def startedIdx (st : SState) (i : Json) : Prop :=
  (i = .num 0 ∧ st.textBlockStarted = true) ∨
  (∃ n : Int, i = .num n ∧
    (lookupS st.toolCallAccumulators (String.mk (intToChars n))).isSome = true)

/-- The tool-call accumulator keys are pairwise distinct and each is the
decimal rendering of a numeric index (guaranteed by well-formed frames). -/
def keysInv (accs : List (String × String)) : Prop :=
  (accs.map Prod.fst).Nodup ∧
  ∀ k ∈ accs.map Prod.fst, ∃ n : Int, k = String.mk (intToChars n)

/-- One processing step's block-ordering contract: every
`content_block_delta` it emits is preceded within its own output by a
`content_block_start` for the same index unless that index was already
started in the incoming state; every index started in the outgoing state
was started before or got its start emitted now; it emits no
`content_block_stop` and no `message_stop`; and it preserves the
accumulator-key invariant. -/
def stepOK (st st' : SState) (e' : List Event) : Prop :=
  (∀ r i, atIs e' r (fun e => isDeltaB e i) = true →
    (∃ p, p < r ∧ atIs e' p (fun e => isStartB e i) = true) ∨ startedIdx st i) ∧
  (∀ i, startedIdx st' i →
    startedIdx st i ∨ ∃ p, atIs e' p (fun e => isStartB e i) = true) ∧
  countName e' "content_block_stop" = 0 ∧
  countName e' "message_stop" = 0 ∧
  (keysInv st.toolCallAccumulators → keysInv st'.toolCallAccumulators)

/-- Loop invariant for the block-ordering claim over the events emitted
before the sentinel. -/
def C2Inv (st : SState) (evs : List Event) : Prop :=
  countName evs "content_block_stop" = 0 ∧
  countName evs "message_stop" = 0 ∧
  (∀ q i, atIs evs q (fun e => isDeltaB e i) = true →
    ∃ p, p < q ∧ atIs evs p (fun e => isStartB e i) = true) ∧
  (∀ i, startedIdx st i → ∃ p, atIs evs p (fun e => isStartB e i) = true) ∧
  keysInv st.toolCallAccumulators

/-- The ordering that actually holds of the emitted stream: every
`content_block_delta` is preceded by a `content_block_start` for its index,
every `content_block_stop` follows every start and delta, no index receives
two stops, and a single `message_stop` closes the stream.  (Unlike the
claimed ordering, a start for an index may follow an earlier delta of the
same index — the text block and tool index 0 share index 0 — and a started
index may receive no stop at all: with tool calls present the text block is
never closed.) -/
def amendedBlockOrdering (evs : List Event) : Prop :=
  (∀ q i, atIs evs q (fun e => isDeltaB e i) = true →
    ∃ p, p < q ∧ atIs evs p (fun e => isStartB e i) = true) ∧
  (∀ p q i j, atIs evs p (fun e => isStartB e i || isDeltaB e i) = true →
    atIs evs q (fun e => isStopB e j) = true → p < q) ∧
  (∀ i, countStops evs i ≤ 1) ∧
  countName evs "message_stop" = 1 ∧
  lastIsMessageStop evs

/-- The well-formedness constraint `wfFrame` puts on the dispatched choice. -/
def wfDelta (choice : Json) : Bool :=
  match propNT choice "delta" with
  | some (.obj dkvs) =>
    match dkvs.getF "tool_calls" with
    | some (.arr xs) => wfToolList xs
    | some (.str s) => decide (s = "")
    | some _ => true
    | none => true
  | _ => true

/-! # Theorems -/

/-! ## C5 — idempotence of the URI-format stripper -/

mutual
theorem removeUri_fixed : ∀ j : Json, noUri j = true → goodProps j = true →
    removeUriFormat j = j
  | .null, _, _ => rfl
  | .bool _, _, _ => rfl
  | .num _, _, _ => rfl
  | .str _, _, _ => rfl
  | .arr xs, h1, h2 => by
    rw [removeUriFormat]
    rw [ruList_fixed xs (by simpa [noUri] using h1) (by simpa [goodProps] using h2)]
  | .obj kvs, h1, h2 => by
    rw [removeUriFormat]
    rw [noUri] at h1
    simp only [Bool.and_eq_true, Bool.not_eq_true', decide_eq_false_iff_not] at h1
    rw [if_neg h1.1]
    rw [ruObj_fixed kvs h1.2 (by simpa [goodProps] using h2)]

theorem ruList_fixed : ∀ xs : JsonList, noUriL xs = true → goodPropsL xs = true →
    ruList xs = xs
  | .nil, _, _ => rfl
  | .cons x xs, h1, h2 => by
    rw [noUriL, Bool.and_eq_true] at h1
    rw [goodPropsL, Bool.and_eq_true] at h2
    rw [ruList, removeUri_fixed x h1.1 h2.1, ruList_fixed xs h1.2 h2.2]

theorem ruProps_fixed : ∀ props : JsonObj, noUriO props = true → goodPropsO props = true →
    ruProps props = props
  | .nil, _, _ => rfl
  | .cons pk pv rest, h1, h2 => by
    rw [noUriO, Bool.and_eq_true] at h1
    rw [goodPropsO, Bool.and_eq_true, Bool.and_eq_true] at h2
    rw [ruProps, removeUri_fixed pv h1.1 h2.1.2, ruProps_fixed rest h1.2 h2.2]

theorem ruObj_fixed : ∀ kvs : JsonObj, noUriO kvs = true → goodPropsO kvs = true →
    ruObj kvs = kvs
  | .nil, _, _ => rfl
  | .cons k v kvs, h1, h2 => by
    rw [noUriO, Bool.and_eq_true] at h1
    rw [goodPropsO, Bool.and_eq_true, Bool.and_eq_true] at h2
    rw [ruObj]
    congr 1
    · by_cases hk : k = "properties" ∧ typeofObject v = true
      · rw [if_pos hk]
        have hv := h2.1.1
        rw [if_pos hk.1] at hv
        simp only [Bool.and_eq_true, Bool.not_eq_true', decide_eq_false_iff_not] at hv
        match v, hk.2, hv with
        | .obj props, _, _ =>
          rw [propsResult]
          rw [ruProps_fixed props
            (by have h := h1.1; rw [noUri, Bool.and_eq_true] at h; exact h.2)
            (by simpa [goodProps] using h2.1.2)]
        | .arr _, _, hv => exact absurd hv.1 (by simp [isArrJ])
        | .null, _, hv => exact absurd rfl hv.2
      · rw [if_neg hk]
        by_cases hk2 : k = "items" ∧ typeofObject v = true
        · rw [if_pos hk2]; exact removeUri_fixed v h1.1 h2.1.2
        · rw [if_neg hk2]
          by_cases hk3 : k = "additionalProperties" ∧ typeofObject v = true
          · rw [if_pos hk3]; exact removeUri_fixed v h1.1 h2.1.2
          · rw [if_neg hk3]
            by_cases hk4 : (k = "anyOf" ∨ k = "allOf" ∨ k = "oneOf") ∧ isArrJ v = true
            · rw [if_pos hk4]
              match v, hk4.2 with
              | .arr xs, _ =>
                rw [anyOfResult]
                rw [ruList_fixed xs (by simpa [noUri] using h1.1)
                  (by simpa [goodProps] using h2.1.2)]
            · rw [if_neg hk4]; exact removeUri_fixed v h1.1 h2.1.2
    · exact ruObj_fixed kvs h1.2 h2.2
end

/-- C5 counterexample: at `exC5schema` (a stripped node carrying a nested
`format:'uri'` under another key) running `removeUriFormat` twice differs
from running it once — the claimed idempotence is false. -/
theorem C5_counterexample :
    removeUriFormat (removeUriFormat exC5schema) ≠ removeUriFormat exC5schema := by decide

/-- C5 (amended): `removeUriFormat` is idempotent at every schema whose
once-stripped result contains no `type:'string', format:'uri'` node and no
`properties` field bound to an array or `null` — both can survive one pass
only inside the verbatim-copied fields of a stripped node. -/
theorem C5_removeUriFormat_idem (s : Json)
    (h1 : noUri (removeUriFormat s) = true)
    (h2 : goodProps (removeUriFormat s) = true) :
    removeUriFormat (removeUriFormat s) = removeUriFormat s :=
  removeUri_fixed _ h1 h2

/-- C5 witness: the hypotheses hold at the realistic nested schema
`exC5wschema`, and the amended theorem applies there. -/
theorem C5_witness :
    noUri (removeUriFormat exC5wschema) = true ∧
    goodProps (removeUriFormat exC5wschema) = true ∧
    removeUriFormat (removeUriFormat exC5wschema) = removeUriFormat exC5wschema :=
  ⟨by decide, by decide, C5_removeUriFormat_idem exC5wschema (by decide) (by decide)⟩

/-! ## C6 — dropped-parameter visibility of `sanitizeRoot` -/

theorem getF_setKey : ∀ (kvs : JsonObj) (k k' : String) (v : Json),
    (kvs.setKey k v).getF k' = if k' = k then some v else kvs.getF k'
  | .nil, k, k', v => by
    simp only [JsonObj.setKey, JsonObj.getF]
    by_cases h : k = k'
    · rw [if_pos h, if_pos h.symm]
    · rw [if_neg h, if_neg (fun he : k' = k => h he.symm)]
  | .cons k0 v0 kvs, k, k', v => by
    simp only [JsonObj.setKey]
    by_cases h : k0 = k
    · subst h
      rw [if_pos rfl]
      by_cases h' : k0 = k'
      · simp only [JsonObj.getF, if_pos h', if_pos h'.symm]
      · simp only [JsonObj.getF, if_neg h', if_neg (fun he : k' = k0 => h' he.symm)]
    · rw [if_neg h]
      by_cases h' : k0 = k'
      · have hne : ¬k' = k := fun he => h ((h'.trans he).symm ▸ rfl)
        simp only [JsonObj.getF, if_pos h', if_neg hne]
      · simp only [JsonObj.getF, if_neg h', getF_setKey kvs k k' v]

theorem getF_delKey : ∀ (kvs : JsonObj) (k k' : String),
    (kvs.delKey k).getF k' = if k' = k then none else kvs.getF k'
  | .nil, k, k' => by simp [JsonObj.delKey, JsonObj.getF]
  | .cons k0 v0 kvs, k, k' => by
    simp only [JsonObj.delKey]
    by_cases h : k0 = k
    · subst h
      rw [if_pos rfl, getF_delKey kvs k0 k']
      by_cases h' : k' = k0
      · rw [if_pos h', if_pos h']
      · simp only [JsonObj.getF, if_neg h', if_neg (fun he : k0 = k' => h' he.symm)]
    · rw [if_neg h]
      by_cases h' : k0 = k'
      · have hne : ¬k' = k := fun he => h ((h'.trans he).symm ▸ rfl)
        simp only [JsonObj.getF, if_pos h', if_neg hne, if_pos h']
      · simp only [JsonObj.getF, if_neg h', getF_delKey kvs k k']

theorem hasKey_setKey (kvs : JsonObj) (k k' : String) (v : Json) (h : k' ≠ k) :
    (kvs.setKey k v).hasKey k' = kvs.hasKey k' := by
  simp [JsonObj.hasKey, getF_setKey, h]

theorem hasKey_delKey (kvs : JsonObj) (k k' : String) :
    (kvs.delKey k).hasKey k' = if k' = k then false else kvs.hasKey k' := by
  by_cases h : k' = k <;> simp [JsonObj.hasKey, getF_delKey, h]

theorem hasKey_sanitizeStop (kvs : JsonObj) (k : String)
    (h1 : k ≠ "stop") (h2 : k ≠ "stop_sequences") :
    (sanitizeStop kvs).hasKey k = kvs.hasKey k := by
  unfold sanitizeStop
  match kvs.getF "stop" with
  | some v => rw [hasKey_delKey, if_neg h1, hasKey_setKey _ _ _ _ h2]
  | none => rfl

theorem dropLoop_hasKey_mono (ks : List String) :
    ∀ kvs d k, (dropLoop ks kvs d).1.hasKey k = true → kvs.hasKey k = true := by
  induction ks with
  | nil => intro kvs d k h; exact h
  | cons k0 ks ih =>
    intro kvs d k h
    unfold dropLoop at h
    by_cases hk : kvs.hasKey k0
    · rw [if_pos hk] at h
      have := ih _ _ _ h
      rw [hasKey_delKey] at this
      by_cases he : k = k0
      · rw [if_pos he] at this; exact absurd this (by simp)
      · rw [if_neg he] at this; exact this
    · rw [if_neg hk] at h
      exact ih _ _ _ h

theorem dropLoop_absent (ks : List String) :
    ∀ kvs d k, k ∈ ks → (dropLoop ks kvs d).1.hasKey k = false := by
  induction ks with
  | nil => intro _ _ _ h; cases h
  | cons k0 ks ih =>
    intro kvs d k hmem
    unfold dropLoop
    rcases List.mem_cons.mp hmem with he | htl
    · subst he
      by_cases hk : kvs.hasKey k
      · rw [if_pos hk]
        by_cases hfin : (dropLoop ks (kvs.delKey k) (d ++ [k])).1.hasKey k
        · have := dropLoop_hasKey_mono ks _ _ _ hfin
          rw [hasKey_delKey, if_pos rfl] at this
          exact absurd this (by simp)
        · simpa using hfin
      · rw [if_neg hk]
        by_cases hfin : (dropLoop ks kvs d).1.hasKey k
        · exact absurd (dropLoop_hasKey_mono ks _ _ _ hfin) hk
        · simpa using hfin
    · by_cases hk : kvs.hasKey k0
      · rw [if_pos hk]; exact ih _ _ _ htl
      · rw [if_neg hk]; exact ih _ _ _ htl

theorem dropLoop_dropped (ks : List String) (hnd : ks.Nodup) :
    ∀ kvs d, (dropLoop ks kvs d).2 = d ++ ks.filter (fun k => kvs.hasKey k) := by
  induction ks with
  | nil => intro kvs d; simp [dropLoop]
  | cons k0 ks ih =>
    intro kvs d
    have hnd' := List.nodup_cons.mp hnd
    unfold dropLoop
    rw [List.filter_cons]
    by_cases hk : kvs.hasKey k0
    · rw [if_pos hk, ih hnd'.2, if_pos hk]
      have hfil : ks.filter (fun k => (kvs.delKey k0).hasKey k) =
          ks.filter (fun k => kvs.hasKey k) := by
        apply List.filter_congr
        intro k hkmem
        rw [hasKey_delKey, if_neg (fun he : k = k0 => hnd'.1 (by rw [← he]; exact hkmem))]
      rw [hfil]
      simp
    · rw [if_neg hk, ih hnd'.2, if_neg (by simpa using hk)]

theorem hasKey_ensureMaxTokens (kvs : JsonObj) (k : String) (h : k ≠ "max_tokens") :
    (ensureMaxTokens kvs).hasKey k = kvs.hasKey k := by
  unfold ensureMaxTokens
  match kvs.getF "max_tokens" with
  | none => rw [hasKey_setKey _ _ _ _ h]
  | some .null => rw [hasKey_setKey _ _ _ _ h]
  | some (.bool _) => rfl
  | some (.num _) => rfl
  | some (.str _) => rfl
  | some (.arr _) => rfl
  | some (.obj _) => rfl

theorem sanitizeUser_spec (kvs1 : JsonObj) (hu1 : kvs1.hasKey "user" = true)
    (hp1 : kvs1.hasKey "presence_penalty" = true) :
    ((sanitizeUser kvs1).2.count "user" + ((sanitizeUser kvs1).1.hasKey "user").toNat = 1) ∧
    (sanitizeUser kvs1).2.count "presence_penalty" = 0 ∧
    (sanitizeUser kvs1).1.hasKey "presence_penalty" = true ∧
    ((sanitizeUser kvs1).2 = [] ∨ (sanitizeUser kvs1).2 = ["user"]) := by
  rcases hgu : kvs1.getF "user" with _ | u
  · simp [JsonObj.hasKey, hgu] at hu1
  · by_cases ht : truthy u
    · simp only [sanitizeUser, hgu, ht, if_true]
      refine ⟨?_, by simp, ?_, by simp⟩
      · simp [hasKey_delKey]
      · rw [hasKey_delKey, if_neg (by decide), hasKey_setKey _ _ _ _ (by decide)]
        exact hp1
    · simp only [sanitizeUser, hgu, ht, if_false]
      refine ⟨?_, by simp, hp1, by simp⟩
      simp [JsonObj.hasKey, hgu, hu1]

/-- C6: sanitizing a request that contains both `presence_penalty` and
`user` yields a dropped list containing each exactly once (and no
duplicates at all), and the sanitized request contains neither key. -/
theorem C6_sanitizeRoot_drops (kvs : JsonObj)
    (hu : kvs.hasKey "user" = true) (hp : kvs.hasKey "presence_penalty" = true) :
    (sanitizeRoot (.obj kvs)).2.count "user" = 1 ∧
    (sanitizeRoot (.obj kvs)).2.count "presence_penalty" = 1 ∧
    (sanitizeRoot (.obj kvs)).2.Nodup ∧
    ∃ kvs', (sanitizeRoot (.obj kvs)).1 = .obj kvs' ∧
      kvs'.hasKey "user" = false ∧ kvs'.hasKey "presence_penalty" = false := by
  have hnd : DROP_KEYS.Nodup := by decide
  have hu1 : (sanitizeStop kvs).hasKey "user" = true := by
    rw [hasKey_sanitizeStop _ _ (by decide) (by decide)]; exact hu
  have hp1 : (sanitizeStop kvs).hasKey "presence_penalty" = true := by
    rw [hasKey_sanitizeStop _ _ (by decide) (by decide)]; exact hp
  have hstep2 := sanitizeUser_spec (sanitizeStop kvs) hu1 hp1
  have hdrops := dropLoop_dropped DROP_KEYS hnd (sanitizeUser (sanitizeStop kvs)).1
    (sanitizeUser (sanitizeStop kvs)).2
  have hcu : (dropLoop DROP_KEYS (sanitizeUser (sanitizeStop kvs)).1
      (sanitizeUser (sanitizeStop kvs)).2).2.count "user" = 1 := by
    rw [hdrops, List.count_append]
    by_cases hk : (sanitizeUser (sanitizeStop kvs)).1.hasKey "user"
    · have h2 := hstep2.1
      rw [hk] at h2
      simp only [Bool.toNat_true] at h2
      have hcnt0 : (sanitizeUser (sanitizeStop kvs)).2.count "user" = 0 := by omega
      rw [hcnt0, List.count_filter (by simpa using hk)]
      decide
    · have h2 := hstep2.1
      rw [Bool.eq_false_iff.mpr hk] at h2
      simp only [Bool.toNat_false] at h2
      have hz : (DROP_KEYS.filter
          (fun k => (sanitizeUser (sanitizeStop kvs)).1.hasKey k)).count "user" = 0 := by
        apply List.count_eq_zero.mpr
        intro hmem
        exact hk (by simpa using (List.mem_filter.mp hmem).2)
      omega
  have hcp : (dropLoop DROP_KEYS (sanitizeUser (sanitizeStop kvs)).1
      (sanitizeUser (sanitizeStop kvs)).2).2.count "presence_penalty" = 1 := by
    rw [hdrops, List.count_append, hstep2.2.1,
      List.count_filter (by simpa using hstep2.2.2.1)]
    decide
  have hnodup : (dropLoop DROP_KEYS (sanitizeUser (sanitizeStop kvs)).1
      (sanitizeUser (sanitizeStop kvs)).2).2.Nodup := by
    rw [hdrops]
    apply List.Nodup.append
    · rcases hstep2.2.2.2 with h | h <;> simp [h]
    · exact List.Nodup.filter _ hnd
    · rcases hstep2.2.2.2 with h | h
      · simp [h]
      · rw [h]
        intro a ha hb
        rw [List.mem_singleton.mp ha] at hb
        have h2 := hstep2.1
        have humem : ¬(sanitizeUser (sanitizeStop kvs)).1.hasKey "user" = true := by
          intro hk
          rw [hk] at h2
          simp only [Bool.toNat_true] at h2
          have hcc : (sanitizeUser (sanitizeStop kvs)).2.count "user" = 0 := by omega
          rw [h] at hcc
          simp at hcc
        exact humem (by simpa using (List.mem_filter.mp hb).2)
  refine ⟨by simpa [sanitizeRoot] using hcu, by simpa [sanitizeRoot] using hcp,
    by simpa [sanitizeRoot] using hnodup, ?_⟩
  refine ⟨ensureMaxTokens (dropLoop DROP_KEYS (sanitizeUser (sanitizeStop kvs)).1
    (sanitizeUser (sanitizeStop kvs)).2).1, by simp [sanitizeRoot], ?_, ?_⟩
  · rw [hasKey_ensureMaxTokens _ _ (by decide)]
    exact dropLoop_absent DROP_KEYS _ _ _ (by decide)
  · rw [hasKey_ensureMaxTokens _ _ (by decide)]
    exact dropLoop_absent DROP_KEYS _ _ _ (by decide)

/-- C6 witness: the theorem applied at the concrete request `exC6req`. -/
theorem C6_witness :
    (sanitizeRoot (.obj exC6req)).2.count "user" = 1 ∧
    (sanitizeRoot (.obj exC6req)).2.count "presence_penalty" = 1 ∧
    (sanitizeRoot (.obj exC6req)).2.Nodup ∧
    ∃ kvs', (sanitizeRoot (.obj exC6req)).1 = .obj kvs' ∧
      kvs'.hasKey "user" = false ∧ kvs'.hasKey "presence_penalty" = false :=
  C6_sanitizeRoot_drops exC6req (by decide) (by decide)

/-! ## C7 — system message extraction and merging -/

/-- C7: for the source list `[{role:system,content:"a"}, u,
{role:system,content:"b"}]` with `u` any object message of role `user`,
`transformMessages` produces a request whose `system` equals `"a\n\nb"`,
whose message list is exactly `[u]`, and hence contains no `system`-role
entry. -/
theorem C7_transformMessages_system (ukvs rest : JsonObj) (fresh : Nat → String)
    (hrole : ukvs.getF "role" = some (.str "user")) :
    ∃ kvs', transformMessages fresh (.obj (JsonObj.cons "messages"
        (jarr [exC7sysA, .obj ukvs, exC7sysB]) rest)) = some (.obj kvs') ∧
      kvs'.getF "system" = some (.str "a\n\nb") ∧
      kvs'.getF "messages" = some (jarr [.obj ukvs]) ∧
      ∀ m ∈ [Json.obj ukvs], propNT m "role" ≠ some (.str "system") := by
  have hloop : tmLoop fresh (JsonList.ofList [exC7sysA, .obj ukvs, exC7sysB]) [] [] 0 =
      some ([.obj ukvs], [some (.str "a"), some (.str "b")]) := by
    simp only [JsonList.ofList, tmLoop, exC7sysA, exC7sysB, jobj, JsonObj.ofList,
      propT, propNT, JsonObj.getF, hrole]
    simp [tmLoop, propT, propNT, hrole]
  refine ⟨((JsonObj.cons "messages" (jarr [exC7sysA, .obj ukvs, exC7sysB]) rest).setKey
      "system" (.str "a\n\nb")).setKey "messages" (jarr [.obj ukvs]), ?_, ?_, ?_, ?_⟩
  · simp only [transformMessages, jarr, JsonObj.getF, if_pos trivial, hloop]
    simp [joinElemStr, jsToStr, String.intercalate, jarr]
    rfl
  · rw [getF_setKey, if_neg (by decide), getF_setKey, if_pos rfl]
  · rw [getF_setKey, if_pos rfl]
  · intro m hm
    rw [List.mem_singleton.mp hm]
    simp [propNT, hrole]

/-- C7 witness: the theorem applied at the concrete user message
`exC7user` and an empty remainder. -/
theorem C7_witness :
    ∃ kvs', transformMessages (fun _ => "r") (.obj (JsonObj.cons "messages"
        (jarr [exC7sysA, .obj exC7user, exC7sysB]) .nil)) = some (.obj kvs') ∧
      kvs'.getF "system" = some (.str "a\n\nb") ∧
      kvs'.getF "messages" = some (jarr [.obj exC7user]) ∧
      ∀ m ∈ [Json.obj exC7user], propNT m "role" ≠ some (.str "system") :=
  C7_transformMessages_system exC7user .nil (fun _ => "r") (by decide)

/-! ## C8 — tool-choice mapping -/

/-- C8 counterexample: with `function_call` absent, `mapToolChoice` leaves
the request unchanged and sets no `tool_choice` at all — the claim's
"absent → auto-variant" is false. -/
theorem C8_counterexample :
    mapToolChoice (jobj [("model", .str "m")]) = jobj [("model", .str "m")] ∧
    propNT (mapToolChoice (jobj [("model", .str "m")])) "tool_choice" = none := by decide

/-- C8 (amended): the string `"none"` maps to the none-variant and any other
non-empty string to the auto-variant, both deleting `function_call`; an
absent (or falsy) `function_call` leaves the request unchanged — no
`tool_choice` is produced; an object with a truthy `name` maps to the
specific variant carrying that name.  The inverse mapping of the route
handler sends the three block variants back to the flat format
symmetrically. -/
theorem C8_mapToolChoice_amended :
    (∀ kvs : JsonObj, kvs.getF "function_call" = none → mapToolChoice (.obj kvs) = .obj kvs) ∧
    (∀ kvs : JsonObj, kvs.getF "function_call" = some (.str "none") →
      mapToolChoice (.obj kvs) =
        .obj ((kvs.setKey "tool_choice" (jobj [("type", .str "none")])).delKey "function_call")) ∧
    (∀ (kvs : JsonObj) (s : String), kvs.getF "function_call" = some (.str s) →
      s ≠ "none" → s ≠ "" →
      mapToolChoice (.obj kvs) =
        .obj ((kvs.setKey "tool_choice" (jobj [("type", .str "auto")])).delKey "function_call")) ∧
    (∀ (kvs fkvs : JsonObj) (v : Json), kvs.getF "function_call" = some (.obj fkvs) →
      fkvs.getF "name" = some v → truthy v = true →
      mapToolChoice (.obj kvs) =
        .obj ((kvs.setKey "tool_choice"
          (jobj [("type", .str "tool"), ("name", v)])).delKey "function_call")) ∧
    (mapToolChoiceToOpenAI (jobj [("type", .str "none")]) = some (.str "none")) ∧
    (mapToolChoiceToOpenAI (jobj [("type", .str "auto")]) = some (.str "auto")) ∧
    (∀ v : Json, truthy v = true →
      mapToolChoiceToOpenAI (jobj [("type", .str "tool"), ("name", v)]) =
        some (jobj [("type", .str "function"), ("function", .obj (.cons "name" v .nil))])) := by
  refine ⟨?_, ?_, ?_, ?_, by decide, by decide, ?_⟩
  · intro kvs h
    simp [mapToolChoice, h]
  · intro kvs h
    simp [mapToolChoice, h, truthy]
  · intro kvs s h hs1 hs2
    simp [mapToolChoice, h, truthy, hs1, hs2]
  · intro kvs fkvs v h hname htr
    simp [mapToolChoice, h, hname, truthyU, htr,
      show truthy (Json.obj fkvs) = true from rfl]
  · intro v htr
    simp [mapToolChoiceToOpenAI, propNT, jobj, JsonObj.ofList, JsonObj.getF,
      truthyU, htr]

/-- C8 witness: the amended theorem applied at three concrete requests
(absent `function_call`, the string `"auto"`, and a named function
object). -/
theorem C8_witness :
    mapToolChoice (.obj (JsonObj.ofList [("model", .str "m")])) =
      .obj (JsonObj.ofList [("model", .str "m")]) ∧
    mapToolChoice (.obj (JsonObj.ofList [("function_call", .str "auto")])) =
      .obj (((JsonObj.ofList [("function_call", .str "auto")]).setKey "tool_choice"
        (jobj [("type", .str "auto")])).delKey "function_call") ∧
    mapToolChoiceToOpenAI (jobj [("type", .str "tool"), ("name", .str "f")]) =
      some (jobj [("type", .str "function"), ("function", .obj (.cons "name" (.str "f") .nil))]) :=
  ⟨C8_mapToolChoice_amended.1 _ (by decide),
   C8_mapToolChoice_amended.2.2.1 _ "auto" (by decide) (by decide) (by decide),
   C8_mapToolChoice_amended.2.2.2.2.2.2 (.str "f") (by decide)⟩

/-! ## C1 — mid-stream upstream error frame -/

/-- C1: evaluating the streaming loop on `exC1lines` — an embedded error
frame, then a content frame, then the sentinel.  The run closes through the
normal `[DONE]` path (no error is surfaced: the `throw` for the error object
is caught by the per-line catch intended for invalid JSON), and a
`content_block_start`, a `text_delta` carrying `"hi"`, and `message_stop`
are all emitted after the error frame. -/
theorem C1_error_frame_swallowed :
    runSSE ctx0 exC1lines = .closedDone (eventsOfR (runSSE ctx0 exC1lines)) ∧
    countName (eventsOfR (runSSE ctx0 exC1lines)) "content_block_start" = 1 ∧
    textDeltaTexts (eventsOfR (runSSE ctx0 exC1lines)) = ["hi"] ∧
    countName (eventsOfR (runSSE ctx0 exC1lines)) "message_stop" = 1 := by decide

/-! ## C3 — tool-call argument delta correctness -/

/-- C3: for the two-frame stream delivering the argument fragments
`{"x":` and `1}` for one tool-call index, the emitted `input_json_delta`
events carry exactly those fragments in order (no byte re-emitted), their
concatenation is `{"x":1}`, and no emitted delta is empty. -/
theorem C3_tool_arg_deltas :
    argDeltaTexts (eventsOfR (runSSE ctx0 exC3lines)) = ["\x7b\"x\":", "1\x7d"] ∧
    String.join (argDeltaTexts (eventsOfR (runSSE ctx0 exC3lines))) = "\x7b\"x\":1\x7d" ∧
    (argDeltaTexts (eventsOfR (runSSE ctx0 exC3lines))).all (fun s => s ≠ "") = true := by
  decide

/-! ## C9 — uniqueness and position of `message_start` + `ping` -/

theorem countName_append (a b : List Event) (n : String) :
    countName (a ++ b) n = countName a n + countName b n := by
  simp [countName, List.filter_append]

theorem countName_nil (n : String) : countName [] n = 0 := rfl

theorem countName_cons (e : Event) (l : List Event) (n : String) :
    countName (e :: l) n = (if e.1 = n then 1 else 0) + countName l n := by
  simp only [countName, List.filter_cons, decide_eq_true_eq]
  split
  · simp [Nat.add_comm]
  · simp

/-- Sequences of pure content-block events contain no `message_start` or
`ping`. -/
theorem countName_eq_zero_of_content (l : List Event)
    (h : ∀ e ∈ l, e.1 = "content_block_start" ∨ e.1 = "content_block_delta")
    (n : String) (h1 : n ≠ "content_block_start") (h2 : n ≠ "content_block_delta") :
    countName l n = 0 := by
  simp only [countName, List.length_eq_zero]
  rw [List.filter_eq_nil_iff]
  intro e he
  simp only [decide_eq_true_eq]
  rcases h e he with hn | hn
  · rw [hn]; exact fun hc => h1 hc.symm
  · rw [hn]; exact fun hc => h2 hc.symm

theorem countName_eq_zero_of_all (l : List Event) (h : l.all isContentEv = true)
    (n : String) (h1 : n ≠ "content_block_start") (h2 : n ≠ "content_block_delta") :
    countName l n = 0 := by
  induction l with
  | nil => rfl
  | cons e l ih =>
    rw [List.all_cons, Bool.and_eq_true] at h
    have hcd : e.1 = "content_block_start" ∨ e.1 = "content_block_delta" := by
      have h1 := h.1
      simp only [isContentEv, Bool.or_eq_true, beq_iff_eq] at h1
      exact h1
    have he : ¬(e.1 = n) := by
      rcases hcd with hn | hn
      · rw [hn]; exact fun hc => h1 hc.symm
      · rw [hn]; exact fun hc => h2 hc.symm
    simp only [countName, List.filter_cons, decide_eq_true_eq]
    rw [if_neg he]
    exact ih h.2

theorem processToolCall_events (ctx : Ctx) (st : SState) (tc : Json) :
    (match processToolCall ctx st tc with
      | .error r => r.2.all isContentEv = true ∧ r.1.isSucceeded = st.isSucceeded
      | .ok r => r.2.all isContentEv = true ∧ r.1.isSucceeded = st.isSucceeded) := by
  unfold processToolCall
  rcases hidx : propT (some tc) "index" with a | idxV
  · exact ⟨rfl, rfl⟩
  · simp only []
    by_cases hnew : (lookupS { st with encounteredToolCall := true }.toolCallAccumulators
        (keyOf idxV)).isNone
    · simp only [hnew, if_true]
      by_cases hargs : truthyU (jsOr (optChain (propNT tc "function") "arguments")
          (jsOr (propNT tc "arguments") (some (.str ""))))
      · simp only [hargs, if_true]
        constructor <;> trivial
      · simp only [hargs, if_false]
        constructor <;> trivial
    · simp only [hnew, if_false]
      by_cases hargs : truthyU (jsOr (optChain (propNT tc "function") "arguments")
          (jsOr (propNT tc "arguments") (some (.str ""))))
      · simp only [hargs, if_true]
        constructor <;> trivial
      · simp only [hargs, if_false]
        constructor <;> trivial

theorem toolCallsLoop_events (ctx : Ctx) :
    ∀ (elems : List Json) (st : SState) (evs0 : List Event),
      evs0.all isContentEv = true →
      (toolCallsLoop ctx st evs0 elems).2.all isContentEv = true ∧
      (toolCallsLoop ctx st evs0 elems).1.isSucceeded = st.isSucceeded := by
  intro elems
  induction elems with
  | nil => intro st evs0 h0; exact ⟨h0, rfl⟩
  | cons tc tcs ih =>
    intro st evs0 h0
    have hev := processToolCall_events ctx st tc
    unfold toolCallsLoop
    rcases hr : processToolCall ctx st tc with r | r
    · rw [hr] at hev
      exact ⟨by simp [List.all_append, h0, hev.1], hev.2⟩
    · rw [hr] at hev
      have := ih r.1 (evs0 ++ r.2) (by simp [List.all_append, h0, hev.1])
      exact ⟨this.1, by rw [this.2, hev.2]⟩



theorem emptyFinishBlock_spec (st2 : SState) (choice : Json) :
    (emptyFinishBlock st2 choice).2.all isContentEv = true ∧
    (emptyFinishBlock st2 choice).1.isSucceeded = st2.isSucceeded := by
  unfold emptyFinishBlock
  split
  · split
    · exact ⟨rfl, rfl⟩
    · exact ⟨rfl, rfl⟩
  · exact ⟨rfl, rfl⟩

theorem openTextBlock_spec (st : SState) :
    (openTextBlock st).2.all isContentEv = true ∧
    (openTextBlock st).1.isSucceeded = st.isSucceeded := by
  unfold openTextBlock
  split
  · exact ⟨rfl, rfl⟩
  · exact ⟨rfl, rfl⟩

theorem processDelta_content (ctx : Ctx) (st2 : SState) (choice : Json) :
    (processDelta ctx st2 choice).2.all isContentEv = true ∧
    (processDelta ctx st2 choice).1.isSucceeded = st2.isSucceeded := by
  have hefb := emptyFinishBlock_spec st2 choice
  unfold processDelta
  simp only []
  by_cases htc : truthyU (propNT choice "delta") = true ∧
      truthyU (match propNT choice "delta" with
               | some d => propNT d "tool_calls"
               | none => none) = true
  · rw [if_pos htc]
    rcases hiter : iterElems ((match propNT choice "delta" with
        | some d => propNT d "tool_calls"
        | none => none).getD .null) with a | elems
    · rw [hiter]
      exact hefb
    · rw [hiter]
      have hloop := toolCallsLoop_events ctx elems (emptyFinishBlock st2 choice).1 [] rfl
      refine ⟨?_, by rw [hloop.2, hefb.2]⟩
      rw [List.all_append]
      simp [hefb.1, hloop.1]
  · rw [if_neg htc]
    by_cases hcn : truthyU (propNT choice "delta") = true ∧
        truthyU (match propNT choice "delta" with
                 | some d => propNT d "content"
                 | none => none) = true
    · rw [if_pos hcn]
      have hot := openTextBlock_spec (emptyFinishBlock st2 choice).1
      refine ⟨?_, by simp only []; rw [hot.2, hefb.2]⟩
      simp only [List.all_append]
      simp [hefb.1, hot.1, isContentEv, evTextDelta]
    · rw [if_neg hcn]
      by_cases hrs : truthyU (propNT choice "delta") = true ∧
          truthyU (match propNT choice "delta" with
                   | some d => propNT d "reasoning"
                   | none => none) = true
      · rw [if_pos hrs]
        have hot := openTextBlock_spec (emptyFinishBlock st2 choice).1
        refine ⟨?_, by simp only []; rw [hot.2, hefb.2]⟩
        simp only [List.all_append]
        simp [hefb.1, hot.1, isContentEv, evThinkingDelta]
      · rw [if_neg hrs]
        exact hefb

theorem processChoice_content (ctx : Ctx) (st2 : SState) (parsed : Json) :
    (processChoice ctx st2 parsed).2.all isContentEv = true ∧
    (processChoice ctx st2 parsed).1.isSucceeded = st2.isSucceeded := by
  unfold processChoice
  rcases hidx : index0 (propNT parsed "choices") with a | choiceV
  · exact ⟨rfl, rfl⟩
  · match choiceV with
    | none => exact ⟨rfl, rfl⟩
    | some .null => exact ⟨rfl, rfl⟩
    | some (.bool b) => exact processDelta_content ctx st2 (.bool b)
    | some (.num n) => exact processDelta_content ctx st2 (.num n)
    | some (.str s) => exact processDelta_content ctx st2 (.str s)
    | some (.arr xs) => exact processDelta_content ctx st2 (.arr xs)
    | some (.obj kvs) => exact processDelta_content ctx st2 (.obj kvs)

theorem processAfterUsage_emits (ctx : Ctx) (st1 : SState) (parsed : Json) :
    (st1.isSucceeded = true ∧
      (processAfterUsage ctx st1 parsed).2.all isContentEv = true ∧
      (processAfterUsage ctx st1 parsed).1.isSucceeded = true) ∨
    (st1.isSucceeded = false ∧
      (∃ post, (processAfterUsage ctx st1 parsed).2 =
        evMessageStart ctx.msgId ctx.model :: evPing :: post ∧ post.all isContentEv = true) ∧
      (processAfterUsage ctx st1 parsed).1.isSucceeded = true) := by
  by_cases hsucc : st1.isSucceeded
  · left
    have h1 : sendSuccessMessage ctx st1 = (st1, []) := by
      simp [sendSuccessMessage, hsucc]
    have hch := processChoice_content ctx st1 parsed
    refine ⟨hsucc, ?_, ?_⟩
    · unfold processAfterUsage
      rw [h1]
      simpa using hch.1
    · unfold processAfterUsage
      rw [h1]
      simpa [hch.2] using hsucc
  · simp only [Bool.not_eq_true] at hsucc
    right
    have h1 : sendSuccessMessage ctx st1 =
        ({ st1 with isSucceeded := true }, [evMessageStart ctx.msgId ctx.model, evPing]) := by
      simp [sendSuccessMessage, hsucc]
    have hch := processChoice_content ctx { st1 with isSucceeded := true } parsed
    refine ⟨hsucc, ?_, ?_⟩
    · refine ⟨(processChoice ctx { st1 with isSucceeded := true } parsed).2, ?_, hch.1⟩
      unfold processAfterUsage
      rw [h1]
      rfl
    · unfold processAfterUsage
      rw [h1]
      simpa using hch.2

theorem processParsed_emits (ctx : Ctx) (st0 : SState) (parsed : Json) :
    ((processParsed ctx st0 parsed).2 = [] ∧
      (processParsed ctx st0 parsed).1.isSucceeded = st0.isSucceeded) ∨
    (st0.isSucceeded = true ∧
      (processParsed ctx st0 parsed).2.all isContentEv = true ∧
      (processParsed ctx st0 parsed).1.isSucceeded = true) ∨
    (st0.isSucceeded = false ∧
      (∃ post, (processParsed ctx st0 parsed).2 =
        evMessageStart ctx.msgId ctx.model :: evPing :: post ∧ post.all isContentEv = true) ∧
      (processParsed ctx st0 parsed).1.isSucceeded = true) := by
  unfold processParsed
  rcases herr : propT (some parsed) "error" with a | errV
  · exact Or.inl ⟨rfl, rfl⟩
  · dsimp only []
    by_cases htr : truthyU errV = true
    · rw [if_pos htr]
      exact Or.inl ⟨rfl, rfl⟩
    · rw [if_neg htr]
      by_cases hu : truthyU (propNT parsed "usage") = true
      · rw [if_pos hu]
        rcases processAfterUsage_emits ctx { st0 with usage := propNT parsed "usage" } parsed
          with h | h
        · exact Or.inr (Or.inl h)
        · exact Or.inr (Or.inr h)
      · rw [if_neg hu]
        rcases processAfterUsage_emits ctx st0 parsed with h | h
        · exact Or.inr (Or.inl h)
        · exact Or.inr (Or.inr h)

theorem countName_map_stop (l : List String) (f : String → Json) (n : String)
    (h : n ≠ "content_block_stop") :
    countName (l.map (fun k => evBlockStop (f k))) n = 0 := by
  induction l with
  | nil => rfl
  | cons k l ih =>
    simp only [List.map_cons, countName, List.filter_cons, decide_eq_true_eq]
    rw [if_neg (fun hc : (evBlockStop (f k)).1 = n => h hc.symm)]
    exact ih

theorem finalize_counts (st : SState) (n : String)
    (h1 : n ≠ "content_block_stop") (h2 : n ≠ "message_delta") (h3 : n ≠ "message_stop") :
    countName (finalizeDone st) n = 0 := by
  unfold finalizeDone
  rw [countName_append]
  have htail : countName [evMessageDelta
      (if st.encounteredToolCall then "tool_use" else "end_turn") st.usage, evMessageStop] n = 0 := by
    simp only [countName, List.filter_cons, decide_eq_true_eq]
    rw [if_neg (fun hc : (evMessageDelta _ _).1 = n => h2 hc.symm),
      if_neg (fun hc : evMessageStop.1 = n => h3 hc.symm)]
    rfl
  rw [htail]
  split
  · rw [countName_map_stop _ _ _ h1]
  · split
    · simp only [countName, List.filter_cons, decide_eq_true_eq]
      rw [if_neg (fun hc : (evBlockStop (.num 0)).1 = n => h1 hc.symm)]
      rfl
    · rfl

theorem pairFirst_append (ctx : Ctx) (evs e' : List Event) (hp : pairFirst ctx evs)
    (hms : countName e' "message_start" = 0) (hpg : countName e' "ping" = 0) :
    pairFirst ctx (evs ++ e') := by
  obtain ⟨h0, h1, hcm, hcp⟩ := hp
  have hlen : 1 < evs.length := (List.get?_eq_some.mp h1).1
  refine ⟨?_, ?_, ?_, ?_⟩
  · rw [List.get?_append (by omega)]; exact h0
  · rw [List.get?_append hlen]; exact h1
  · rw [countName_append, hcm, hms]
  · rw [countName_append, hcp, hpg]

theorem C9Inv_init (ctx : Ctx) : C9Inv ctx initStreamState [] :=
  ⟨fun _ => rfl, fun h => by simp [initStreamState] at h⟩

theorem C9Inv_to_closed (ctx : Ctx) (st : SState) (evs : List Event)
    (h : C9Inv ctx st evs) (e' : List Event)
    (hms : countName e' "message_start" = 0) (hpg : countName e' "ping" = 0) :
    C9Closed ctx (evs ++ e') := by
  by_cases hsucc : st.isSucceeded
  · have hp := h.2 hsucc
    have hp' := pairFirst_append ctx evs e' hp hms hpg
    exact ⟨by rw [hp'.2.2.1], by rw [hp'.2.2.2], fun _ => hp'⟩
  · rw [h.1 (by simpa using hsucc)]
    simp only [List.nil_append]
    exact ⟨by omega, by omega, fun hc => by omega⟩

theorem stepLine_C9 (ctx : Ctx) (st : SState) (evs : List Event) (l : List Char)
    (hInv : C9Inv ctx st evs) :
    (match stepLine ctx st l with
      | .cont st' e' => C9Inv ctx st' (evs ++ e')
      | .finished e' => C9Closed ctx (evs ++ e')) := by
  unfold stepLine
  rcases hlp : linePayload l with _ | ds
  · simpa using hInv
  · dsimp only []
    by_cases hdone : ds = "[DONE]".data
    · rw [if_pos hdone]
      exact C9Inv_to_closed ctx st evs hInv _
        (finalize_counts st _ (by decide) (by decide) (by decide))
        (finalize_counts st _ (by decide) (by decide) (by decide))
    · rw [if_neg hdone]
      rcases hp : jsonParse ds with _ | parsed
      · simpa using hInv
      · simp only []
        rcases processParsed_emits ctx st parsed with h | h | h
        · rw [h.1, List.append_nil]
          exact ⟨fun hf => hInv.1 (by rw [← h.2]; exact hf),
            fun ht => hInv.2 (by rw [← h.2]; exact ht)⟩
        · refine ⟨fun hf => ?_, fun _ => ?_⟩
          · rw [h.2.2] at hf; cases hf
          · exact pairFirst_append ctx evs _ (hInv.2 h.1)
              (countName_eq_zero_of_all _ h.2.1 _ (by decide) (by decide))
              (countName_eq_zero_of_all _ h.2.1 _ (by decide) (by decide))
        · obtain ⟨post, hpost, hall⟩ := h.2.1
          refine ⟨fun hf => ?_, fun _ => ?_⟩
          · rw [h.2.2] at hf; cases hf
          · rw [hInv.1 h.1, hpost, List.nil_append]
            have hz1 := countName_eq_zero_of_all post hall "message_start" (by decide) (by decide)
            have hz2 := countName_eq_zero_of_all post hall "ping" (by decide) (by decide)
            refine ⟨rfl, rfl, ?_, ?_⟩
            · rw [countName_cons, countName_cons, hz1]
              simp [evMessageStart, evPing]
            · rw [countName_cons, countName_cons, hz2]
              simp [evMessageStart, evPing]

theorem runLines_C9 (ctx : Ctx) :
    ∀ (lines : List (List Char)) (st : SState) (evs : List Event), C9Inv ctx st evs →
    (match runLines ctx st evs lines with
      | .running st' evs' => C9Inv ctx st' evs'
      | .closedDone evs' => C9Closed ctx evs') := by
  intro lines
  induction lines with
  | nil => intro st evs h; exact h
  | cons l ls ih =>
    intro st evs h
    have hs := stepLine_C9 ctx st evs l h
    unfold runLines
    rcases hst : stepLine ctx st l with ⟨st', e'⟩ | e'
    · rw [hst] at hs
      exact ih st' (evs ++ e') hs
    · rw [hst] at hs
      exact hs


theorem runLines_cons_eq (ctx : Ctx) (st : SState) (evs : List Event)
    (l : List Char) (ls : List (List Char)) :
    runLines ctx st evs (l :: ls) =
      match stepLine ctx st l with
      | .cont st' e => runLines ctx st' (evs ++ e) ls
      | .finished e => .closedDone (evs ++ e) := rfl

theorem runLines_append (ctx : Ctx) :
    ∀ (l1 l2 : List (List Char)) (st : SState) (evs : List Event),
      runLines ctx st evs (l1 ++ l2) =
        match runLines ctx st evs l1 with
        | .running st' evs' => runLines ctx st' evs' l2
        | .closedDone e => .closedDone e := by
  intro l1
  induction l1 with
  | nil => intro l2 st evs; rfl
  | cons l ls ih =>
    intro l2 st evs
    rw [List.cons_append, runLines_cons_eq, runLines_cons_eq]
    rcases stepLine ctx st l with ⟨st', e'⟩ | e'
    · dsimp only []
      exact ih l2 st' (evs ++ e')
    · rfl

theorem runLines_events_mono (ctx : Ctx) :
    ∀ (ls : List (List Char)) (st : SState) (evs : List Event),
      ∃ suf, eventsOfR (runLines ctx st evs ls) = evs ++ suf := by
  intro ls
  induction ls with
  | nil => intro st evs; exact ⟨[], by simp [runLines, eventsOfR]⟩
  | cons l ls ih =>
    intro st evs
    rw [runLines_cons_eq]
    rcases stepLine ctx st l with ⟨st', e'⟩ | e'
    · obtain ⟨suf, hsuf⟩ := ih st' (evs ++ e')
      exact ⟨e' ++ suf, by rw [← List.append_assoc]; exact hsuf⟩
    · exact ⟨e', rfl⟩

theorem stepLine_cont_of_not_done (ctx : Ctx) (st : SState) (l : List Char)
    (h : isDoneLine l = false) :
    ∃ st' e', stepLine ctx st l = .cont st' e' := by
  unfold stepLine
  rcases hlp : linePayload l with _ | ds
  · exact ⟨st, [], rfl⟩
  · dsimp only []
    have hdone : ¬ds = "[DONE]".data := by
      intro hc
      rw [isDoneLine, hlp, hc] at h
      simp at h
    rw [if_neg hdone]
    rcases jsonParse ds with _ | parsed
    · exact ⟨st, [], rfl⟩
    · exact ⟨_, _, rfl⟩

theorem runLines_no_done (ctx : Ctx) :
    ∀ (ls : List (List Char)) (st : SState) (evs : List Event),
      (∀ l ∈ ls, isDoneLine l = false) →
      ∃ st' evs', runLines ctx st evs ls = .running st' evs' := by
  intro ls
  induction ls with
  | nil => intro st evs _; exact ⟨st, evs, rfl⟩
  | cons l ls ih =>
    intro st evs hall
    obtain ⟨st1, e1, hs⟩ := stepLine_cont_of_not_done ctx st l (hall l (by simp))
    rw [runLines_cons_eq, hs]
    exact ih st1 (evs ++ e1) (fun x hx => hall x (by simp [hx]))

theorem processParsed_good_succ (ctx : Ctx) (st : SState) (parsed : Json)
    (errV : JsVal) (herr : propT (some parsed) "error" = .ok errV)
    (htr : truthyU errV = false) :
    (processParsed ctx st parsed).1.isSucceeded = true := by
  unfold processParsed
  rw [herr]
  dsimp only []
  rw [if_neg (by rw [htr]; exact fun hc => nomatch hc)]
  by_cases hu : truthyU (propNT parsed "usage") = true
  · rw [if_pos hu]
    rcases processAfterUsage_emits ctx { st with usage := propNT parsed "usage" } parsed
      with h | h <;> exact h.2.2
  · rw [if_neg hu]
    rcases processAfterUsage_emits ctx st parsed with h | h <;> exact h.2.2

theorem stepLine_good (ctx : Ctx) (st : SState) (l : List Char)
    (h : goodFrameLine l = true) :
    ∃ st' e', stepLine ctx st l = .cont st' e' ∧ st'.isSucceeded = true := by
  unfold goodFrameLine at h
  unfold stepLine
  rcases hlp : linePayload l with _ | ds
  · rw [hlp] at h; cases h
  · rw [hlp] at h
    dsimp only [] at h ⊢
    by_cases hdone : ds = "[DONE]".data
    · rw [if_pos hdone] at h; cases h
    · rw [if_neg hdone] at h ⊢
      rcases hp : jsonParse ds with _ | parsed
      · rw [hp] at h; cases h
      · rw [hp] at h
        dsimp only [] at h ⊢
        rcases herr : propT (some parsed) "error" with a | errV
        · rw [herr] at h; cases h
        · rw [herr] at h
          refine ⟨_, _, rfl, ?_⟩
          exact processParsed_good_succ ctx st parsed errV herr
            (by simpa using h)

/-- C9 counterexample: a stream whose only frame is the `[DONE]` sentinel
emits no `message_start` (and no `ping`) at all, yet does emit other events
(`message_delta`, `message_stop`) — so "exactly one `message_start` …
preceding every other event" fails for this streaming request. -/
theorem C9_counterexample :
    countName (eventsOfR (runSSE ctx0 ["data: [DONE]"])) "message_start" = 0 ∧
    countName (eventsOfR (runSSE ctx0 ["data: [DONE]"])) "ping" = 0 ∧
    eventsOfR (runSSE ctx0 ["data: [DONE]"]) ≠ [] := by decide

/-- C9 (amended): for every streaming request, at most one `message_start`
and at most one `ping` are emitted, and when a `message_start` exists it is
the first event, immediately followed by the single `ping`, so the pair
precedes every other emitted event; moreover exactly one `message_start`
and exactly one `ping` are emitted whenever some non-sentinel frame that
parses to a payload without a truthy `error` arrives before any sentinel. -/
theorem C9_message_start_once (ctx : Ctx) (lines : List String) :
    C9Closed ctx (eventsOfR (runSSE ctx lines)) ∧
    (∀ L1 g L2, lines = L1 ++ g :: L2 → goodFrameLine g.data = true →
      (∀ l ∈ L1, isDoneLine l.data = false) →
      countName (eventsOfR (runSSE ctx lines)) "message_start" = 1 ∧
      countName (eventsOfR (runSSE ctx lines)) "ping" = 1) := by
  have hclosed : C9Closed ctx (eventsOfR (runSSE ctx lines)) := by
    have hrun := runLines_C9 ctx (lines.map String.data) initStreamState [] (C9Inv_init ctx)
    unfold runSSE
    rcases hr : runLines ctx initStreamState [] (lines.map String.data) with ⟨st', evs'⟩ | evs'
    · rw [hr] at hrun
      have := C9Inv_to_closed ctx st' evs' hrun [] rfl rfl
      simpa [eventsOfR] using this
    · rw [hr] at hrun
      exact hrun
  refine ⟨hclosed, ?_⟩
  intro L1 g L2 hsplit hgood hnodone
  subst hsplit
  have hmap : (L1 ++ g :: L2).map String.data =
      L1.map String.data ++ g.data :: L2.map String.data := by simp
  obtain ⟨st1, evs1, h1⟩ := runLines_no_done ctx (L1.map String.data) initStreamState []
    (by
      intro l hl
      obtain ⟨x, hx, hxl⟩ := List.mem_map.1 hl
      exact hxl ▸ hnodone x hx)
  have hInv1 : C9Inv ctx st1 evs1 := by
    have h := runLines_C9 ctx (L1.map String.data) initStreamState [] (C9Inv_init ctx)
    rw [h1] at h
    exact h
  obtain ⟨st2, e2, hs2, hsucc2⟩ := stepLine_good ctx st1 g.data hgood
  have hInv2 : C9Inv ctx st2 (evs1 ++ e2) := by
    have h := stepLine_C9 ctx st1 evs1 g.data hInv1
    rw [hs2] at h
    exact h
  have hpair := hInv2.2 hsucc2
  obtain ⟨suf, hsuf⟩ := runLines_events_mono ctx (L2.map String.data) st2 (evs1 ++ e2)
  have hE : eventsOfR (runSSE ctx (L1 ++ g :: L2)) = (evs1 ++ e2) ++ suf := by
    unfold runSSE
    rw [hmap, runLines_append, h1]
    dsimp only []
    rw [runLines_cons_eq, hs2]
    exact hsuf
  rw [hE] at hclosed ⊢
  constructor
  · have hc := hclosed.1
    rw [countName_append, hpair.2.2.1] at hc ⊢
    omega
  · have hc := hclosed.2.1
    rw [countName_append, hpair.2.2.2] at hc ⊢
    omega

theorem C9_witness :
    goodFrameLine ("data: \x7b\x7d" : String).data = true ∧
    countName (eventsOfR (runSSE ctx0 ["data: \x7b\x7d", "data: [DONE]"])) "message_start" = 1 ∧
    countName (eventsOfR (runSSE ctx0 ["data: \x7b\x7d", "data: [DONE]"])) "ping" = 1 :=
  ⟨by decide,
   (C9_message_start_once ctx0 ["data: \x7b\x7d", "data: [DONE]"]).2
     [] "data: \x7b\x7d" ["data: [DONE]"] rfl (by decide) (by decide)⟩

/-! ## C4 — chunk-boundary equivalence of the buffered line loop -/
/-! ## C4 — chunk-boundary equivalence of the buffered line loop -/

theorem splitNlAll_cons (c : Char) (cs : List Char) :
    splitNlAll (c :: cs) =
      if c = '\n' then [] :: splitNlAll cs
      else
        match splitNlAll cs with
        | l :: ls => (c :: l) :: ls
        | [] => [[c]] := rfl

theorem splitNlAll_ne_nil : ∀ cs : List Char, splitNlAll cs ≠ []
  | [] => by simp [splitNlAll]
  | c :: cs => by
    rw [splitNlAll_cons]
    by_cases h : c = '\n'
    · rw [if_pos h]; simp
    · rw [if_neg h]
      rcases splitNlAll cs with _ | ⟨l, ls⟩ <;> simp

theorem splitNlAll_append : ∀ a b : List Char,
    splitNlAll (a ++ b) =
      (splitNlAll a).dropLast ++
        joinHead (((splitNlAll a).getLast?).getD []) (splitNlAll b)
  | [], b => by
    rcases h : splitNlAll b with _ | ⟨l, ls⟩
    · exact absurd h (splitNlAll_ne_nil b)
    · simp [splitNlAll, joinHead, h]
  | c :: cs, b => by
    rw [List.cons_append, splitNlAll_cons, splitNlAll_cons]
    by_cases h : c = '\n'
    · rw [if_pos h, if_pos h, splitNlAll_append cs b]
      rcases hs : splitNlAll cs with _ | ⟨l, ls⟩
      · exact absurd hs (splitNlAll_ne_nil cs)
      · simp
    · rw [if_neg h, if_neg h, splitNlAll_append cs b]
      rcases hs : splitNlAll cs with _ | ⟨l, ls⟩
      · exact absurd hs (splitNlAll_ne_nil cs)
      · rcases hb : splitNlAll b with _ | ⟨hb1, hbs⟩
        · exact absurd hb (splitNlAll_ne_nil b)
        · rcases ls with _ | ⟨l2, ls2⟩
          · simp [joinHead, hb]
          · simp [joinHead, hb]

theorem splitNlAll_no_nl : ∀ (cs : List Char), ∀ p ∈ splitNlAll cs, '\n' ∉ p
  | [] => by
    intro p hp
    simp only [splitNlAll, List.mem_singleton] at hp
    subst hp; simp
  | c :: cs => by
    intro p hp
    rw [splitNlAll_cons] at hp
    by_cases h : c = '\n'
    · rw [if_pos h] at hp
      rcases List.mem_cons.1 hp with h2 | h2
      · subst h2; simp
      · exact splitNlAll_no_nl cs p h2
    · rw [if_neg h] at hp
      rcases hs : splitNlAll cs with _ | ⟨l, ls⟩
      · exact absurd hs (splitNlAll_ne_nil cs)
      · rw [hs] at hp
        dsimp only [] at hp
        rcases List.mem_cons.1 hp with h2 | h2
        · subst h2
          intro hmem
          rcases List.mem_cons.1 hmem with h3 | h3
          · exact h h3.symm
          · exact splitNlAll_no_nl cs l (hs ▸ List.mem_cons_self l ls) h3
        · exact splitNlAll_no_nl cs p (hs ▸ List.mem_cons_of_mem l h2)

theorem splitNlAll_of_no_nl : ∀ cs : List Char, '\n' ∉ cs → splitNlAll cs = [cs]
  | [] => fun _ => rfl
  | c :: cs => by
    intro h
    rw [splitNlAll_cons]
    have hc : ¬c = '\n' := fun hc => h (hc ▸ List.mem_cons_self c cs)
    rw [if_neg hc, splitNlAll_of_no_nl cs (fun hm => h (List.mem_cons_of_mem c hm))]

theorem splitNlAll_getLast_no_nl (cs : List Char) :
    '\n' ∉ ((splitNlAll cs).getLast?).getD [] := by
  rcases h : (splitNlAll cs).getLast? with _ | t
  · simp
  · simpa using splitNlAll_no_nl cs t (List.mem_of_getLast?_eq_some h)

theorem endsWithNl_getLast (w : List Char) (h : endsWithNl w = true) :
    (splitNlAll w).getLast? = some [] := by
  have hw : w ≠ [] := by
    intro hc; subst hc
    simp [endsWithNl] at h
  have hlast : w.getLast hw = '\n' := by
    have := List.getLast?_eq_getLast w hw
    rw [endsWithNl, this] at h
    simpa using h
  have hdecomp : w.dropLast ++ ['\n'] = w := by
    rw [← hlast]
    exact List.dropLast_concat_getLast hw
  rw [← hdecomp, splitNlAll_append]
  have : splitNlAll ['\n'] = [[], []] := rfl
  rw [this]
  rcases hj : joinHead (((splitNlAll w.dropLast).getLast?).getD []) [[], []]
      with _ | ⟨j1, js⟩
  · simp [joinHead] at hj
  · simp [joinHead] at hj
    rw [← hj.1, ← hj.2]
    rw [List.getLast?_append_of_ne_nil _ (by simp)]
    simp

theorem runLines_snoc_nil (ctx : Ctx) (st : SState) (evs : List Event)
    (L : List (List Char)) :
    runLines ctx st evs (L ++ [[]]) = runLines ctx st evs L := by
  rw [runLines_append]
  rcases runLines ctx st evs L with ⟨st', evs'⟩ | evs'
  · show RunRes.running st' (evs' ++ []) = _
    rw [List.append_nil]
  · rfl

theorem feedChunk_eq (ctx : Ctx) (st : SState) (buf : List Char)
    (evs : List Event) (c : List Char) :
    feedChunk ctx (.running st buf evs) c =
      match runLines ctx st evs ((splitNlAll (buf ++ c)).dropLast) with
      | .running st' evs' =>
          .running st' (((splitNlAll (buf ++ c)).getLast?).getD []) evs'
      | .closedDone evs' => .closedDone evs' := by
  unfold feedChunk
  dsimp only []
  by_cases h : endsWithNl (buf ++ c) = true
  · rw [if_neg (not_not_intro h)]
    have hlast := endsWithNl_getLast (buf ++ c) h
    have hsplit : (splitNlAll (buf ++ c)).dropLast ++ [[]] = splitNlAll (buf ++ c) :=
      List.dropLast_append_getLast? [] hlast
    have hrun : runLines ctx st evs (splitNlAll (buf ++ c)) =
        runLines ctx st evs ((splitNlAll (buf ++ c)).dropLast) := by
      conv_lhs => rw [← hsplit]
      exact runLines_snoc_nil ctx st evs _
    rw [hrun, hlast]
    rcases runLines ctx st evs ((splitNlAll (buf ++ c)).dropLast) with ⟨st', evs'⟩ | evs'
    · rfl
    · rfl
  · rw [if_pos h]

theorem feedChunk_append (ctx : Ctx) (p : CPhase) (c1 c2 : List Char) :
    feedChunk ctx (feedChunk ctx p c1) c2 = feedChunk ctx p (c1 ++ c2) := by
  rcases p with ⟨st, buf, evs⟩ | evs
  · have ht1 : splitNlAll (((splitNlAll (buf ++ c1)).getLast?).getD []) =
        [((splitNlAll (buf ++ c1)).getLast?).getD []] :=
      splitNlAll_of_no_nl _ (splitNlAll_getLast_no_nl (buf ++ c1))
    have hT : splitNlAll ((((splitNlAll (buf ++ c1)).getLast?).getD []) ++ c2) =
        joinHead (((splitNlAll (buf ++ c1)).getLast?).getD []) (splitNlAll c2) := by
      rw [splitNlAll_append, ht1]
      simp
    have hS : splitNlAll (buf ++ (c1 ++ c2)) =
        (splitNlAll (buf ++ c1)).dropLast ++
          splitNlAll ((((splitNlAll (buf ++ c1)).getLast?).getD []) ++ c2) := by
      rw [← List.append_assoc, splitNlAll_append (buf ++ c1) c2, hT]
    have hne : splitNlAll ((((splitNlAll (buf ++ c1)).getLast?).getD []) ++ c2) ≠ [] :=
      splitNlAll_ne_nil _
    have hdrop : (splitNlAll (buf ++ (c1 ++ c2))).dropLast =
        (splitNlAll (buf ++ c1)).dropLast ++
          (splitNlAll ((((splitNlAll (buf ++ c1)).getLast?).getD []) ++ c2)).dropLast := by
      rw [hS]
      exact List.dropLast_append_of_ne_nil _ hne
    have hlastA : (splitNlAll (buf ++ (c1 ++ c2))).getLast? =
        (splitNlAll ((((splitNlAll (buf ++ c1)).getLast?).getD []) ++ c2)).getLast? := by
      rw [hS]
      exact List.getLast?_append_of_ne_nil _ hne
    rw [feedChunk_eq ctx st buf evs c1]
    rcases hr1 : runLines ctx st evs ((splitNlAll (buf ++ c1)).dropLast) with ⟨st1, evs1⟩ | evs1
    · dsimp only []
      rw [feedChunk_eq ctx st1 (((splitNlAll (buf ++ c1)).getLast?).getD []) evs1 c2,
        feedChunk_eq ctx st buf evs (c1 ++ c2), hdrop, hlastA, runLines_append, hr1]
    · dsimp only []
      rw [feedChunk_eq ctx st buf evs (c1 ++ c2), hdrop, runLines_append, hr1]
      rfl
  · rfl

theorem foldl_feedChunk (ctx : Ctx) :
    ∀ (cs : List (List Char)) (p : CPhase) (c : List Char),
      List.foldl (feedChunk ctx) (feedChunk ctx p c) cs = feedChunk ctx p (c ++ cs.flatten) := by
  intro cs
  induction cs with
  | nil => intro p c; simp
  | cons c2 cs ih =>
    intro p c
    show List.foldl (feedChunk ctx) (feedChunk ctx (feedChunk ctx p c) c2) cs = _
    rw [feedChunk_append, ih p (c ++ c2), List.flatten_cons, List.append_assoc]

/-- C4 counterexample: the byte stream `exC4all` (one frame whose content is
the two-byte UTF-8 character `é`, then the sentinel), split at a byte
boundary inside the character, yields a different downstream event sequence
than the unsplit stream: each chunk is decoded with `decoder.decode(value)`
(no `stream: true`), so the split character decodes to two replacement
characters. -/
theorem C4_counterexample :
    exC4b1 ++ exC4b2 = exC4all ∧
    eventsOfC (processBytes ctx0 [exC4b1, exC4b2]) ≠
      eventsOfC (processBytes ctx0 [exC4all]) := by decide

/-- C4 (amended): at the decoded character level the buffering is correct —
feeding any chunking of a character stream to the buffered line loop yields
exactly the phase (state, residual buffer and event sequence) of feeding it
whole: the loop runs precisely on the complete (newline-terminated) lines,
the unterminated tail is kept in the residual buffer and never handed to the
line loop, and that tail contains no newline. The original byte-level claim
is false (`C4_counterexample`): `decoder.decode(value)` without
`stream: true` corrupts a multi-byte character split across chunks. -/
theorem C4_chunk_equivalence (ctx : Ctx) (chunks : List (List Char)) :
    processChunks ctx chunks = processChunks ctx [chunks.flatten] ∧
    processChunks ctx chunks =
      (match runLines ctx initStreamState [] ((splitNlAll chunks.flatten).dropLast) with
       | .running st' evs' =>
           CPhase.running st' (((splitNlAll chunks.flatten).getLast?).getD []) evs'
       | .closedDone evs' => CPhase.closedDone evs') ∧
    '\n' ∉ ((splitNlAll chunks.flatten).getLast?).getD [] := by
  have h1 : processChunks ctx chunks =
      feedChunk ctx (.running initStreamState [] []) chunks.flatten := by
    cases chunks with
    | nil => rfl
    | cons c cs =>
      show List.foldl (feedChunk ctx)
        (feedChunk ctx (.running initStreamState [] []) c) cs = _
      rw [foldl_feedChunk, List.flatten_cons]
  refine ⟨?_, ?_, splitNlAll_getLast_no_nl chunks.flatten⟩
  · rw [h1]
    rfl
  · rw [h1, feedChunk_eq]
    simp only [List.nil_append]

/-! ## C2 — block ordering: positional helpers -/

theorem atIs_lt_length (evs : List Event) (p : Nat) (f : Event → Bool)
    (h : atIs evs p f = true) : p < evs.length := by
  by_contra hge
  push_neg at hge
  rw [atIs, List.get?_eq_none.2 hge] at h
  cases h

theorem atIs_append_left (a b : List Event) (p : Nat) (f : Event → Bool)
    (h : p < a.length) : atIs (a ++ b) p f = atIs a p f := by
  rw [atIs, atIs, List.get?_append h]

theorem atIs_append_right (a b : List Event) (r : Nat) (f : Event → Bool) :
    atIs (a ++ b) (a.length + r) f = atIs b r f := by
  rw [atIs, atIs, List.get?_append_right (Nat.le_add_right _ _), Nat.add_sub_cancel_left]

theorem atIs_split (a b : List Event) (p : Nat) (f : Event → Bool)
    (h : atIs (a ++ b) p f = true) :
    (p < a.length ∧ atIs a p f = true) ∨
    (∃ r, p = a.length + r ∧ atIs b r f = true) := by
  by_cases hp : p < a.length
  · exact Or.inl ⟨hp, by rwa [atIs_append_left a b p f hp] at h⟩
  · push_neg at hp
    refine Or.inr ⟨p - a.length, by omega, ?_⟩
    have he : a.length + (p - a.length) = p := by omega
    rwa [← he, atIs_append_right] at h

theorem atIs_of_mem (evs : List Event) (e : Event) (f : Event → Bool)
    (hm : e ∈ evs) (hf : f e = true) : ∃ p, atIs evs p f = true := by
  obtain ⟨n, hn⟩ := List.get?_of_mem hm
  exact ⟨n, by rw [atIs, hn]; simpa using hf⟩

theorem mem_of_atIs (evs : List Event) (p : Nat) (f : Event → Bool)
    (h : atIs evs p f = true) : ∃ e ∈ evs, f e = true := by
  rw [atIs] at h
  rcases hg : evs.get? p with _ | e
  · rw [hg] at h; cases h
  · rw [hg] at h
    exact ⟨e, List.get?_mem hg, by simpa using h⟩

theorem atIs_nil (r : Nat) (f : Event → Bool) : atIs [] r f = false := by
  simp [atIs]

theorem atIs_cons_zero (e : Event) (l : List Event) (f : Event → Bool) :
    atIs (e :: l) 0 f = f e := rfl

theorem atIs_cons_succ (e : Event) (l : List Event) (r : Nat) (f : Event → Bool) :
    atIs (e :: l) (r + 1) f = atIs l r f := rfl

theorem isStartB_iff (e : Event) (i : Json) :
    isStartB e i = true ↔ e.1 = "content_block_start" ∧ payloadIndex e = some i := by
  simp [isStartB]

theorem isDeltaB_iff (e : Event) (i : Json) :
    isDeltaB e i = true ↔ e.1 = "content_block_delta" ∧ payloadIndex e = some i := by
  simp [isDeltaB]

theorem stepOK_nil (st st' : SState)
    (htb : st'.textBlockStarted = st.textBlockStarted)
    (hacc : st'.toolCallAccumulators = st.toolCallAccumulators) :
    stepOK st st' [] := by
  refine ⟨?_, ?_, rfl, rfl, ?_⟩
  · intro r i h
    rw [atIs_nil] at h
    cases h
  · intro i hst
    left
    unfold startedIdx at hst ⊢
    rw [htb, hacc] at hst
    exact hst
  · rw [hacc]
    exact id

theorem stepOK_trans (st1 st2 st3 : SState) (e1 e2 : List Event)
    (h1 : stepOK st1 st2 e1) (h2 : stepOK st2 st3 e2) :
    stepOK st1 st3 (e1 ++ e2) := by
  refine ⟨?_, ?_, ?_, ?_, fun hk => h2.2.2.2.2 (h1.2.2.2.2 hk)⟩
  · intro r i hr
    rcases atIs_split e1 e2 r _ hr with ⟨hlt, hA⟩ | ⟨r2, hreq, hB⟩
    · rcases h1.1 r i hA with ⟨p, hp, hpa⟩ | hst
      · refine Or.inl ⟨p, hp, ?_⟩
        rw [atIs_append_left _ _ _ _ (atIs_lt_length _ _ _ hpa)]
        exact hpa
      · exact Or.inr hst
    · subst hreq
      rcases h2.1 r2 i hB with ⟨p, hp, hpa⟩ | hst
      · refine Or.inl ⟨e1.length + p, by omega, ?_⟩
        rw [atIs_append_right]
        exact hpa
      · rcases h1.2.1 i hst with hst1 | ⟨p, hpa⟩
        · exact Or.inr hst1
        · refine Or.inl ⟨p, ?_, ?_⟩
          · have := atIs_lt_length _ _ _ hpa
            omega
          · rw [atIs_append_left _ _ _ _ (atIs_lt_length _ _ _ hpa)]
            exact hpa
  · intro i hst
    rcases h2.2.1 i hst with hst2 | ⟨p, hpa⟩
    · rcases h1.2.1 i hst2 with hst1 | ⟨p, hpa⟩
      · exact Or.inl hst1
      · refine Or.inr ⟨p, ?_⟩
        rw [atIs_append_left _ _ _ _ (atIs_lt_length _ _ _ hpa)]
        exact hpa
    · refine Or.inr ⟨e1.length + p, ?_⟩
      rw [atIs_append_right]
      exact hpa
  · rw [countName_append, h1.2.2.1, h2.2.2.1]
  · rw [countName_append, h1.2.2.2.1, h2.2.2.2.1]

/-! ## C2 — decimal rendering / parsing roundtrip -/

theorem digitVal_digitChar (d : Nat) (hd : d < 10) : digitVal (digitChar d) = some d := by
  interval_cases d <;> decide

theorem natToCharsAux_digits :
    ∀ (fuel n : Nat), ∀ c ∈ natToCharsAux fuel n, (digitVal c).isSome = true
  | 0, n => by intro c hc; cases hc
  | fuel + 1, n => by
    intro c hc
    unfold natToCharsAux at hc
    by_cases h : n < 10
    · rw [if_pos h] at hc
      have : c = digitChar n := List.mem_singleton.1 hc
      subst this
      rw [digitVal_digitChar n h]
      rfl
    · rw [if_neg h] at hc
      rcases List.mem_append.1 hc with h2 | h2
      · exact natToCharsAux_digits fuel (n / 10) c h2
      · have : c = digitChar (n % 10) := List.mem_singleton.1 h2
        subst this
        rw [digitVal_digitChar _ (Nat.mod_lt n (by norm_num))]
        rfl

theorem parseDigitsAux_cons (c : Char) (cs : List Char) (acc : Nat) :
    parseDigitsAux (c :: cs) acc =
      match digitVal c with
      | some d => parseDigitsAux cs (acc * 10 + d)
      | none => acc := rfl

theorem parseDigitsAux_append (a b : List Char)
    (ha : ∀ c ∈ a, (digitVal c).isSome = true) :
    ∀ acc, parseDigitsAux (a ++ b) acc = parseDigitsAux b (parseDigitsAux a acc) := by
  induction a with
  | nil => intro acc; rfl
  | cons c cs ih =>
    intro acc
    have hc := ha c (by simp)
    rcases hd : digitVal c with _ | d
    · rw [hd] at hc; cases hc
    · rw [List.cons_append, parseDigitsAux_cons, parseDigitsAux_cons, hd]
      exact ih (fun x hx => ha x (by simp [hx])) (acc * 10 + d)

theorem parseDigits_natToCharsAux :
    ∀ (fuel n : Nat), n < fuel → ∀ acc,
      parseDigitsAux (natToCharsAux fuel n) acc =
        acc * 10 ^ (natToCharsAux fuel n).length + n := by
  intro fuel
  induction fuel with
  | zero => intro n h; omega
  | succ fuel ih =>
    intro n h acc
    unfold natToCharsAux
    by_cases h10 : n < 10
    · rw [if_pos h10, parseDigitsAux_cons, digitVal_digitChar n h10]
      simp [parseDigitsAux]
    · rw [if_neg h10,
        parseDigitsAux_append _ _ (natToCharsAux_digits fuel (n / 10)) acc,
        ih (n / 10) (by omega) acc, parseDigitsAux_cons,
        digitVal_digitChar _ (Nat.mod_lt n (by norm_num)),
        List.length_append, List.length_singleton, pow_succ, ← Nat.mul_assoc]
      show (acc * 10 ^ (natToCharsAux fuel (n / 10)).length + n / 10) * 10 + n % 10 = _
      generalize acc * 10 ^ (natToCharsAux fuel (n / 10)).length = A
      have := Nat.div_add_mod n 10
      omega

theorem parseDigits_natToChars (n : Nat) : parseDigitsAux (natToChars n) 0 = n := by
  rw [natToChars, parseDigits_natToCharsAux (n + 1) n (by omega) 0]
  simp

theorem natToChars_ne_nil (n : Nat) : natToChars n ≠ [] := by
  rw [natToChars]
  unfold natToCharsAux
  by_cases h : n < 10
  · rw [if_pos h]; simp
  · rw [if_neg h]; simp

theorem natToChars_digits (n : Nat) : ∀ c ∈ natToChars n, (digitVal c).isSome = true :=
  natToCharsAux_digits (n + 1) n

theorem leadingDigits_all (cs : List Char) (h : ∀ c ∈ cs, (digitVal c).isSome = true) :
    leadingDigits cs = cs := by
  induction cs with
  | nil => rfl
  | cons c cs ih =>
    unfold leadingDigits
    rw [if_pos (h c (by simp)), ih (fun x hx => h x (by simp [hx]))]

theorem digit_not_special (c : Char) (h : (digitVal c).isSome = true) :
    ¬(c = ' ' ∨ c = '\t' ∨ c = '\n' ∨ c = '\r') ∧ ¬c = '-' ∧ ¬c = '+' := by
  rw [digitVal] at h
  by_cases hb : '0' ≤ c ∧ c ≤ '9'
  · refine ⟨?_, ?_, ?_⟩
    · rintro (rfl | rfl | rfl | rfl) <;> revert hb <;> decide
    · rintro rfl; revert hb; decide
    · rintro rfl; revert hb; decide
  · rw [if_neg hb] at h; cases h

theorem isEmpty_eq_false_of_ne_nil (cs : List Char) (h : cs ≠ []) :
    cs.isEmpty = false := by
  rcases cs with _ | ⟨c, cs⟩
  · exact absurd rfl h
  · rfl

theorem parseIntJs_render (n : Int) : parseIntJs (String.mk (intToChars n)) = some n := by
  rw [parseIntJs]
  have hdata : (String.mk (intToChars n)).data = intToChars n := rfl
  rw [hdata]
  by_cases hneg : n < 0
  · rw [intToChars, if_pos hneg, List.dropWhile_cons, if_neg (by decide)]
    dsimp only []
    rw [if_pos rfl, leadingDigits_all _ (natToChars_digits n.natAbs),
      if_neg (by rw [isEmpty_eq_false_of_ne_nil _ (natToChars_ne_nil n.natAbs)]; exact
        fun hc => nomatch hc),
      parseDigits_natToChars]
    simp only [Option.some.injEq]
    omega
  · rw [intToChars, if_neg hneg]
    rcases hnc : natToChars n.natAbs with _ | ⟨c, rest⟩
    · exact absurd hnc (natToChars_ne_nil n.natAbs)
    · have hdig : ∀ x ∈ c :: rest, (digitVal x).isSome = true := by
        rw [← hnc]; exact natToChars_digits n.natAbs
      have hc := digit_not_special c (hdig c (by simp))
      rw [List.dropWhile_cons, if_neg (fun hd => hc.1 (of_decide_eq_true hd))]
      dsimp only []
      rw [if_neg hc.2.1, if_neg hc.2.2, leadingDigits_all _ hdig,
        if_neg (by rw [isEmpty_eq_false_of_ne_nil _ (by simp)]; exact fun hc => nomatch hc),
        ← hnc, parseDigits_natToChars]
      simp only [Option.some.injEq]
      omega

theorem render_inj (m n : Int) (h : String.mk (intToChars m) = String.mk (intToChars n)) :
    m = n := by
  have h1 := parseIntJs_render m
  rw [h, parseIntJs_render n] at h1
  exact (Option.some.inj h1).symm

/-! ## C2 — accumulator key bookkeeping -/

theorem lookupS_isSome_iff_mem :
    ∀ (accs : List (String × String)) (k : String),
      (lookupS accs k).isSome = true ↔ k ∈ accs.map Prod.fst
  | [], k => by simp [lookupS]
  | (k', v) :: rest, k => by
    simp only [lookupS, List.map_cons, List.mem_cons]
    by_cases h : k' = k
    · subst h
      simp
    · rw [if_neg h, lookupS_isSome_iff_mem rest k]
      constructor
      · exact Or.inr
      · rintro (h1 | h1)
        · exact absurd h1.symm h
        · exact h1

theorem setS_keys :
    ∀ (accs : List (String × String)) (k v : String),
      (setS accs k v).map Prod.fst =
        if (lookupS accs k).isSome then accs.map Prod.fst
        else accs.map Prod.fst ++ [k]
  | [], k, v => by simp [setS, lookupS]
  | (k', w) :: rest, k, v => by
    simp only [setS, lookupS]
    by_cases h : k' = k
    · subst h
      simp
    · simp only [if_neg h, List.map_cons, setS_keys rest k v]
      by_cases h2 : (lookupS rest k).isSome = true
      · rw [if_pos h2, if_pos h2]
      · rw [if_neg h2, if_neg h2]
        simp

/-! ## C2 — event classification facts -/

theorem propT_obj (kvs : JsonObj) (k : String) :
    propT (some (.obj kvs)) k = .ok (kvs.getF k) := rfl

theorem payloadIndex_toolStart (n : Int) (a b : JsVal) :
    payloadIndex (evToolBlockStart (some (.num n)) a b) = some (.num n) := rfl

theorem payloadIndex_toolDelta (n : Int) (d : Json) :
    payloadIndex (evToolDelta (some (.num n)) d) = some (.num n) := rfl

theorem isStartB_toolStart (n : Int) (a b : JsVal) (i : Json) :
    isStartB (evToolBlockStart (some (.num n)) a b) i = true ↔ i = .num n := by
  rw [isStartB_iff, payloadIndex_toolStart]
  constructor
  · rintro ⟨-, h2⟩
    exact (Option.some.inj h2).symm
  · rintro rfl
    exact ⟨rfl, rfl⟩

theorem isDeltaB_toolStart (idx a b : JsVal) (i : Json) :
    isDeltaB (evToolBlockStart idx a b) i = false := rfl

theorem isStartB_toolDelta (idx : JsVal) (d : Json) (i : Json) :
    isStartB (evToolDelta idx d) i = false := rfl

theorem isDeltaB_toolDelta (n : Int) (d : Json) (i : Json) :
    isDeltaB (evToolDelta (some (.num n)) d) i = true ↔ i = .num n := by
  rw [isDeltaB_iff, payloadIndex_toolDelta]
  constructor
  · rintro ⟨-, h2⟩
    exact (Option.some.inj h2).symm
  · rintro rfl
    exact ⟨rfl, rfl⟩

theorem isStartB_textStart (i : Json) :
    isStartB evTextBlockStart i = true ↔ i = .num 0 := by
  rw [isStartB_iff]
  constructor
  · rintro ⟨-, h2⟩
    exact (Option.some.inj h2).symm
  · rintro rfl
    exact ⟨rfl, rfl⟩

theorem isDeltaB_textStart (i : Json) : isDeltaB evTextBlockStart i = false := rfl

theorem isStartB_textDelta (t : Json) (i : Json) : isStartB (evTextDelta t) i = false := rfl

theorem isDeltaB_textDelta (t : Json) (i : Json) :
    isDeltaB (evTextDelta t) i = true ↔ i = .num 0 := by
  rw [isDeltaB_iff]
  constructor
  · rintro ⟨-, h2⟩
    exact (Option.some.inj h2).symm
  · rintro rfl
    exact ⟨rfl, rfl⟩

theorem isStartB_thinkingDelta (t : Json) (i : Json) :
    isStartB (evThinkingDelta t) i = false := rfl

theorem isDeltaB_thinkingDelta (t : Json) (i : Json) :
    isDeltaB (evThinkingDelta t) i = true ↔ i = .num 0 := by
  rw [isDeltaB_iff]
  constructor
  · rintro ⟨-, h2⟩
    exact (Option.some.inj h2).symm
  · rintro rfl
    exact ⟨rfl, rfl⟩

theorem isStartB_msgStart (a b : String) (i : Json) :
    isStartB (evMessageStart a b) i = false := rfl

theorem isDeltaB_msgStart (a b : String) (i : Json) :
    isDeltaB (evMessageStart a b) i = false := rfl

theorem isStartB_ping (i : Json) : isStartB evPing i = false := rfl

theorem isDeltaB_ping (i : Json) : isDeltaB evPing i = false := rfl

theorem startedIdx_of_eq (st st' : SState)
    (htb : st'.textBlockStarted = st.textBlockStarted)
    (hacc : st'.toolCallAccumulators = st.toolCallAccumulators) (i : Json)
    (h : startedIdx st' i) : startedIdx st i := by
  unfold startedIdx at h ⊢
  rw [htb, hacc] at h
  exact h

theorem startedIdx_of_keys (st st' : SState)
    (htb : st'.textBlockStarted = st.textBlockStarted)
    (hkeys : st'.toolCallAccumulators.map Prod.fst = st.toolCallAccumulators.map Prod.fst)
    (i : Json) (h : startedIdx st' i) : startedIdx st i := by
  rcases h with ⟨hi, ht⟩ | ⟨m, him, hm⟩
  · exact Or.inl ⟨hi, htb ▸ ht⟩
  · refine Or.inr ⟨m, him, ?_⟩
    rw [lookupS_isSome_iff_mem] at hm ⊢
    rw [hkeys] at hm
    exact hm

theorem keysInv_snoc (ks : List (String × String)) (n : Int)
    (hk : keysInv ks) (habs : String.mk (intToChars n) ∉ ks.map Prod.fst) :
    keysInv (ks ++ [(String.mk (intToChars n), "")]) := by
  constructor
  · rw [List.map_append]
    have hone : List.map Prod.fst [(String.mk (intToChars n), "")] =
        [String.mk (intToChars n)] := rfl
    rw [hone, (List.perm_append_singleton _ _).nodup_iff, List.nodup_cons]
    exact ⟨habs, hk.1⟩
  · intro k hkm
    rw [List.map_append] at hkm
    rcases List.mem_append.1 hkm with h | h
    · exact hk.2 k h
    · have : k = String.mk (intToChars n) := by simpa using h
      exact ⟨n, this⟩

theorem keysInv_setS (accs : List (String × String)) (k v : String)
    (hmem : (lookupS accs k).isSome = true) (hk : keysInv accs) :
    keysInv (setS accs k v) := by
  unfold keysInv at hk ⊢
  rw [setS_keys, if_pos hmem]
  exact hk

theorem processToolCall_C2 (ctx : Ctx) (st0 : SState) (tc : Json)
    (hwf : wfToolEntry tc = true) :
    (match processToolCall ctx st0 tc with
      | .error r => stepOK st0 r.1 r.2
      | .ok r => stepOK st0 r.1 r.2) := by
  rcases tc with _ | b | m | s | xs | kvs
  · cases hwf
  · cases hwf
  · cases hwf
  · cases hwf
  · cases hwf
  · unfold wfToolEntry at hwf
    dsimp only [] at hwf
    rcases hidx : kvs.getF "index" with _ | j
    · rw [hidx] at hwf; cases hwf
    · rw [hidx] at hwf
      rcases j with _ | b | n | s | xs2 | kvs2
      · cases hwf
      · cases hwf
      · have hkey : keyOf (some (.num n)) = String.mk (intToChars n) := rfl
        unfold processToolCall
        rw [propT_obj, hidx]
        dsimp only []
        by_cases hargs : truthyU (jsOr (optChain (propNT (Json.obj kvs) "function") "arguments")
            (jsOr (propNT (Json.obj kvs) "arguments") (some (Json.str "")))) = true
        · rw [if_pos hargs]
          dsimp only []
          by_cases hnew : (lookupS st0.toolCallAccumulators
              (keyOf (some (Json.num n)))).isNone = true
          · rw [if_pos hnew]
            dsimp only []
            rw [List.singleton_append]
            have hnotmem : String.mk (intToChars n) ∉
                st0.toolCallAccumulators.map Prod.fst := by
              rw [← lookupS_isSome_iff_mem, ← hkey]
              rcases hl : lookupS st0.toolCallAccumulators (keyOf (some (Json.num n)))
                  with _ | v
              · simp
              · rw [hl] at hnew; cases hnew
            have hmemsnoc : (lookupS (st0.toolCallAccumulators ++
                [(keyOf (some (Json.num n)), "")])
                (keyOf (some (Json.num n)))).isSome = true := by
              rw [lookupS_isSome_iff_mem, List.map_append]
              simp
            refine ⟨?_, ?_, rfl, rfl, ?_⟩
            · intro r i h
              match r with
              | 0 =>
                rw [atIs_cons_zero, isDeltaB_toolStart] at h
                cases h
              | 1 =>
                rw [atIs_cons_succ, atIs_cons_zero, isDeltaB_toolDelta] at h
                subst h
                refine Or.inl ⟨0, by omega, ?_⟩
                rw [atIs_cons_zero]
                exact (isStartB_toolStart n _ _ _).2 rfl
              | (r + 2) =>
                rw [atIs_cons_succ, atIs_cons_succ, atIs_nil] at h
                cases h
            · intro i hst
              rcases hst with ⟨hi, ht⟩ | ⟨m, him, hm⟩
              · exact Or.inl (Or.inl ⟨hi, ht⟩)
              · dsimp only [] at hm
                rw [lookupS_isSome_iff_mem, setS_keys, if_pos hmemsnoc,
                  List.map_append] at hm
                rcases List.mem_append.1 hm with h2 | h2
                · refine Or.inl (Or.inr ⟨m, him, ?_⟩)
                  rw [lookupS_isSome_iff_mem]
                  exact h2
                · have heq : String.mk (intToChars m) = keyOf (some (Json.num n)) := by
                    simpa using h2
                  rw [hkey] at heq
                  have hmn := render_inj m n heq
                  subst hmn
                  subst him
                  refine Or.inr ⟨0, ?_⟩
                  rw [atIs_cons_zero]
                  exact (isStartB_toolStart m _ _ _).2 rfl
            · intro hk
              refine keysInv_setS _ _ _ hmemsnoc ?_
              have := keysInv_snoc st0.toolCallAccumulators n hk hnotmem
              rw [← hkey] at this
              exact this
          · rw [if_neg hnew]
            dsimp only []
            rw [List.nil_append]
            have hsome : (lookupS st0.toolCallAccumulators
                (keyOf (some (Json.num n)))).isSome = true := by
              rcases hl : lookupS st0.toolCallAccumulators (keyOf (some (Json.num n)))
                  with _ | v
              · rw [hl] at hnew; exact absurd rfl hnew
              · rfl
            refine ⟨?_, ?_, rfl, rfl, ?_⟩
            · intro r i h
              match r with
              | 0 =>
                rw [atIs_cons_zero, isDeltaB_toolDelta] at h
                subst h
                refine Or.inr (Or.inr ⟨n, rfl, ?_⟩)
                rw [← hkey]
                exact hsome
              | (r + 1) =>
                rw [atIs_cons_succ, atIs_nil] at h
                cases h
            · intro i hst
              exact Or.inl (startedIdx_of_keys st0 _ (by rfl)
                (by dsimp only []; rw [setS_keys, if_pos hsome]) i hst)
            · intro hk
              exact keysInv_setS _ _ _ hsome hk
        · rw [if_neg hargs]
          dsimp only []
          by_cases hnew : (lookupS st0.toolCallAccumulators
              (keyOf (some (Json.num n)))).isNone = true
          · rw [if_pos hnew]
            dsimp only []
            have hnotmem : String.mk (intToChars n) ∉
                st0.toolCallAccumulators.map Prod.fst := by
              rw [← lookupS_isSome_iff_mem, ← hkey]
              rcases hl : lookupS st0.toolCallAccumulators (keyOf (some (Json.num n)))
                  with _ | v
              · simp
              · rw [hl] at hnew; cases hnew
            refine ⟨?_, ?_, rfl, rfl, ?_⟩
            · intro r i h
              match r with
              | 0 =>
                rw [atIs_cons_zero, isDeltaB_toolStart] at h
                cases h
              | (r + 1) =>
                rw [atIs_cons_succ, atIs_nil] at h
                cases h
            · intro i hst
              rcases hst with ⟨hi, ht⟩ | ⟨m, him, hm⟩
              · exact Or.inl (Or.inl ⟨hi, ht⟩)
              · dsimp only [] at hm
                rw [lookupS_isSome_iff_mem, List.map_append] at hm
                rcases List.mem_append.1 hm with h2 | h2
                · refine Or.inl (Or.inr ⟨m, him, ?_⟩)
                  rw [lookupS_isSome_iff_mem]
                  exact h2
                · have heq : String.mk (intToChars m) = keyOf (some (Json.num n)) := by
                    simpa using h2
                  rw [hkey] at heq
                  have hmn := render_inj m n heq
                  subst hmn
                  subst him
                  refine Or.inr ⟨0, ?_⟩
                  rw [atIs_cons_zero]
                  exact (isStartB_toolStart m _ _ _).2 rfl
            · intro hk
              have := keysInv_snoc st0.toolCallAccumulators n hk hnotmem
              rw [← hkey] at this
              exact this
          · rw [if_neg hnew]
            dsimp only []
            exact stepOK_nil st0 _ rfl rfl
      · cases hwf
      · cases hwf
      · cases hwf

theorem wfToolList_toList :
    ∀ xs : JsonList, wfToolList xs = true → ∀ tc ∈ xs.toList, wfToolEntry tc = true
  | .nil => by intro _ tc htc; cases htc
  | .cons x xs => by
    intro h tc htc
    rw [wfToolList, Bool.and_eq_true] at h
    rcases List.mem_cons.1 htc with rfl | h2
    · exact h.1
    · exact wfToolList_toList xs h.2 tc h2

theorem toolCallsLoop_C2 (ctx : Ctx) :
    ∀ (elems : List Json) (st : SState) (evs0 : List Event),
      (∀ tc ∈ elems, wfToolEntry tc = true) →
      ∃ tail, (toolCallsLoop ctx st evs0 elems).2 = evs0 ++ tail ∧
        stepOK st (toolCallsLoop ctx st evs0 elems).1 tail := by
  intro elems
  induction elems with
  | nil =>
    intro st evs0 _
    exact ⟨[], by simp [toolCallsLoop], stepOK_nil st st rfl rfl⟩
  | cons tc tcs ih =>
    intro st evs0 hall
    have hstep := processToolCall_C2 ctx st tc (hall tc (by simp))
    unfold toolCallsLoop
    rcases hr : processToolCall ctx st tc with r | r
    · rw [hr] at hstep
      exact ⟨r.2, rfl, hstep⟩
    · rw [hr] at hstep
      obtain ⟨tail2, htail2, hstep2⟩ := ih r.1 (evs0 ++ r.2)
        (fun x hx => hall x (by simp [hx]))
      refine ⟨r.2 ++ tail2, ?_, stepOK_trans _ _ _ _ _ hstep hstep2⟩
      rw [htail2, List.append_assoc]

theorem stepOK_textStart (st : SState) :
    stepOK st { st with textBlockStarted := true } [evTextBlockStart] := by
  refine ⟨?_, ?_, rfl, rfl, ?_⟩
  · intro r i h
    match r with
    | 0 => rw [atIs_cons_zero, isDeltaB_textStart] at h; cases h
    | (r + 1) => rw [atIs_cons_succ, atIs_nil] at h; cases h
  · intro i hst
    rcases hst with ⟨hi, _⟩ | ⟨m, him, hm⟩
    · subst hi
      exact Or.inr ⟨0, by rw [atIs_cons_zero]; exact (isStartB_textStart _).2 rfl⟩
    · exact Or.inl (Or.inr ⟨m, him, hm⟩)
  · exact id

theorem emptyFinishBlock_C2 (st2 : SState) (choice : Json) :
    stepOK st2 (emptyFinishBlock st2 choice).1 (emptyFinishBlock st2 choice).2 := by
  unfold emptyFinishBlock
  split
  · split
    · exact stepOK_textStart st2
    · exact stepOK_nil st2 st2 rfl rfl
  · exact stepOK_nil st2 st2 rfl rfl

theorem openTextBlock_C2 (st : SState) :
    stepOK st (openTextBlock st).1 (openTextBlock st).2 := by
  unfold openTextBlock
  split
  · exact stepOK_textStart st
  · exact stepOK_nil st st rfl rfl

theorem openTextBlock_started (st : SState) :
    (openTextBlock st).1.textBlockStarted = true := by
  unfold openTextBlock
  split
  · rfl
  · next h => simpa using h

theorem stepOK_delta0 (st4 st5 : SState) (ev : Event)
    (htb : st4.textBlockStarted = true)
    (hd : ∀ i, isDeltaB ev i = true → i = .num 0)
    (hname1 : countName [ev] "content_block_stop" = 0)
    (hname2 : countName [ev] "message_stop" = 0)
    (htb5 : st5.textBlockStarted = st4.textBlockStarted)
    (hacc5 : st5.toolCallAccumulators = st4.toolCallAccumulators) :
    stepOK st4 st5 [ev] := by
  refine ⟨?_, ?_, hname1, hname2, ?_⟩
  · intro r i h
    match r with
    | 0 =>
      rw [atIs_cons_zero] at h
      have := hd i h
      subst this
      exact Or.inr (Or.inl ⟨rfl, htb⟩)
    | (r + 1) => rw [atIs_cons_succ, atIs_nil] at h; cases h
  · intro i hst
    exact Or.inl (startedIdx_of_eq st4 st5 htb5 hacc5 i hst)
  · rw [hacc5]
    exact id

theorem propNT_obj (kvs : JsonObj) (k : String) : propNT (.obj kvs) k = kvs.getF k := rfl

theorem processDelta_C2 (ctx : Ctx) (st2 : SState) (choice : Json)
    (hwf : wfDelta choice = true) :
    stepOK st2 (processDelta ctx st2 choice).1 (processDelta ctx st2 choice).2 := by
  have hefb := emptyFinishBlock_C2 st2 choice
  unfold processDelta
  simp only []
  by_cases htc : truthyU (propNT choice "delta") = true ∧
      truthyU (match propNT choice "delta" with
               | some d => propNT d "tool_calls"
               | none => none) = true
  · rw [if_pos htc]
    rcases hd : propNT choice "delta" with _ | d
    · rw [hd] at htc
      simp [truthyU] at htc
    · rcases d with _ | b2 | n2 | s2 | xs2 | dkvs
      · rw [hd] at htc
        simp [truthyU, truthy] at htc
      · rw [hd] at htc
        simp [truthyU, propNT] at htc
      · rw [hd] at htc
        simp [truthyU, propNT] at htc
      · rw [hd] at htc
        simp [truthyU, propNT] at htc
      · rw [hd] at htc
        simp [truthyU, propNT] at htc
      · rw [hd] at htc
        dsimp only [] at htc
        rw [propNT_obj] at htc
        unfold wfDelta at hwf
        rw [hd] at hwf
        dsimp only [] at hwf
        rcases htcj : dkvs.getF "tool_calls" with _ | tcj
        · rw [htcj] at htc
          simp [truthyU] at htc
        · rw [htcj] at htc hwf
          rcases tcj with _ | b3 | n3 | s3 | xs3 | okvs
          · simp [truthyU, truthy] at htc
          · dsimp only []
            rw [propNT_obj, htcj]
            have hiter : iterElems ((some (Json.bool b3)).getD .null) = .error () := rfl
            rw [hiter]
            exact hefb
          · dsimp only []
            rw [propNT_obj, htcj]
            have hiter : iterElems ((some (Json.num n3)).getD .null) = .error () := rfl
            rw [hiter]
            exact hefb
          · rw [decide_eq_true_eq] at hwf
            subst hwf
            simp [truthyU, truthy] at htc
          · dsimp only []
            rw [propNT_obj, htcj]
            have hiter : iterElems ((some (Json.arr xs3)).getD .null) = .ok xs3.toList := rfl
            rw [hiter]
            dsimp only []
            obtain ⟨tail, htail, hloop⟩ := toolCallsLoop_C2 ctx xs3.toList
              (emptyFinishBlock st2 choice).1 [] (wfToolList_toList xs3 hwf)
            rw [htail, List.nil_append]
            exact stepOK_trans _ _ _ _ _ hefb hloop
          · dsimp only []
            rw [propNT_obj, htcj]
            have hiter : iterElems ((some (Json.obj okvs)).getD .null) = .error () := rfl
            rw [hiter]
            exact hefb
  · rw [if_neg htc]
    by_cases hcn : truthyU (propNT choice "delta") = true ∧
        truthyU (match propNT choice "delta" with
                 | some d => propNT d "content"
                 | none => none) = true
    · rw [if_pos hcn]
      have hot := openTextBlock_C2 (emptyFinishBlock st2 choice).1
      have hdelta := stepOK_delta0 (openTextBlock (emptyFinishBlock st2 choice).1).1
        _ (evTextDelta ((match propNT choice "delta" with
              | some d => propNT d "content"
              | none => none).getD .null))
        (openTextBlock_started (emptyFinishBlock st2 choice).1)
        (fun i h => (isDeltaB_textDelta _ i).1 h) rfl rfl rfl rfl
      exact stepOK_trans _ _ _ _ _ (stepOK_trans _ _ _ _ _ hefb hot) hdelta
    · rw [if_neg hcn]
      by_cases hrs : truthyU (propNT choice "delta") = true ∧
          truthyU (match propNT choice "delta" with
                   | some d => propNT d "reasoning"
                   | none => none) = true
      · rw [if_pos hrs]
        have hot := openTextBlock_C2 (emptyFinishBlock st2 choice).1
        have hdelta := stepOK_delta0 (openTextBlock (emptyFinishBlock st2 choice).1).1
          _ (evThinkingDelta ((match propNT choice "delta" with
                | some d => propNT d "reasoning"
                | none => none).getD .null))
          (openTextBlock_started (emptyFinishBlock st2 choice).1)
          (fun i h => (isDeltaB_thinkingDelta _ i).1 h) rfl rfl rfl rfl
        exact stepOK_trans _ _ _ _ _ (stepOK_trans _ _ _ _ _ hefb hot) hdelta
      · rw [if_neg hrs]
        exact hefb

theorem wfDelta_of_wfFrame (f choice : Json) (hwf : wfFrame f = true)
    (hix : index0 (propNT f "choices") = .ok (some choice)) : wfDelta choice = true := by
  unfold wfFrame at hwf
  rw [hix] at hwf
  dsimp only [] at hwf
  unfold wfDelta
  exact hwf

theorem processChoice_C2 (ctx : Ctx) (st2 : SState) (parsed : Json)
    (hwf : wfFrame parsed = true) :
    stepOK st2 (processChoice ctx st2 parsed).1 (processChoice ctx st2 parsed).2 := by
  unfold processChoice
  rcases hidx : index0 (propNT parsed "choices") with a | choiceV
  · exact stepOK_nil st2 st2 rfl rfl
  · rcases choiceV with _ | c
    · exact stepOK_nil st2 st2 rfl rfl
    · rcases c with _ | b | m | s | xs | kvs
      · exact stepOK_nil st2 st2 rfl rfl
      · exact processDelta_C2 ctx st2 (.bool b) (wfDelta_of_wfFrame _ _ hwf hidx)
      · exact processDelta_C2 ctx st2 (.num m) (wfDelta_of_wfFrame _ _ hwf hidx)
      · exact processDelta_C2 ctx st2 (.str s) (wfDelta_of_wfFrame _ _ hwf hidx)
      · exact processDelta_C2 ctx st2 (.arr xs) (wfDelta_of_wfFrame _ _ hwf hidx)
      · exact processDelta_C2 ctx st2 (.obj kvs) (wfDelta_of_wfFrame _ _ hwf hidx)

theorem sendSuccessMessage_C2 (ctx : Ctx) (st1 : SState) :
    stepOK st1 (sendSuccessMessage ctx st1).1 (sendSuccessMessage ctx st1).2 := by
  unfold sendSuccessMessage
  split
  · exact stepOK_nil st1 st1 rfl rfl
  · refine ⟨?_, ?_, rfl, rfl, ?_⟩
    · intro r i h
      match r with
      | 0 => rw [atIs_cons_zero, isDeltaB_msgStart] at h; cases h
      | 1 => rw [atIs_cons_succ, atIs_cons_zero, isDeltaB_ping] at h; cases h
      | (r + 2) => rw [atIs_cons_succ, atIs_cons_succ, atIs_nil] at h; cases h
    · intro i hst
      exact Or.inl (startedIdx_of_eq st1 _ (by rfl) (by rfl) i hst)
    · exact id

theorem processAfterUsage_C2 (ctx : Ctx) (st1 : SState) (parsed : Json)
    (hwf : wfFrame parsed = true) :
    stepOK st1 (processAfterUsage ctx st1 parsed).1 (processAfterUsage ctx st1 parsed).2 := by
  have h1 := sendSuccessMessage_C2 ctx st1
  have h2 := processChoice_C2 ctx (sendSuccessMessage ctx st1).1 parsed hwf
  unfold processAfterUsage
  dsimp only []
  exact stepOK_trans _ _ _ _ _ h1 h2

theorem processParsed_C2 (ctx : Ctx) (st0 : SState) (parsed : Json)
    (hwf : wfFrame parsed = true) :
    stepOK st0 (processParsed ctx st0 parsed).1 (processParsed ctx st0 parsed).2 := by
  unfold processParsed
  rcases herr : propT (some parsed) "error" with a | errV
  · exact stepOK_nil st0 st0 rfl rfl
  · dsimp only []
    by_cases htr : truthyU errV = true
    · rw [if_pos htr]
      exact stepOK_nil st0 st0 rfl rfl
    · rw [if_neg htr]
      by_cases hu : truthyU (propNT parsed "usage") = true
      · rw [if_pos hu]
        have h0 : stepOK st0 { st0 with usage := propNT parsed "usage" } [] :=
          stepOK_nil st0 _ rfl rfl
        have h1 := processAfterUsage_C2 ctx { st0 with usage := propNT parsed "usage" }
          parsed hwf
        have h2 := stepOK_trans _ _ _ _ _ h0 h1
        rw [List.nil_append] at h2
        exact h2
      · rw [if_neg hu]
        exact processAfterUsage_C2 ctx st0 parsed hwf

theorem stepLine_C2 (ctx : Ctx) (st : SState) (l : List Char)
    (hwf : wfLine l = true) (hnd : isDoneLine l = false) :
    ∃ st' e', stepLine ctx st l = .cont st' e' ∧ stepOK st st' e' := by
  unfold stepLine
  unfold wfLine at hwf
  rcases hlp : linePayload l with _ | ds
  · exact ⟨st, [], rfl, stepOK_nil st st rfl rfl⟩
  · rw [hlp] at hwf
    dsimp only [] at hwf ⊢
    have hdone : ¬ds = "[DONE]".data := by
      intro hc
      rw [isDoneLine, hlp, hc] at hnd
      simp at hnd
    rw [if_neg hdone]
    rcases hp : jsonParse ds with _ | parsed
    · exact ⟨st, [], rfl, stepOK_nil st st rfl rfl⟩
    · rw [hp] at hwf
      exact ⟨_, _, rfl, processParsed_C2 ctx st parsed hwf⟩

theorem C2Inv_init : C2Inv initStreamState [] := by
  refine ⟨rfl, rfl, ?_, ?_, ?_⟩
  · intro q i h
    rw [atIs_nil] at h
    cases h
  · intro i hst
    rcases hst with ⟨_, ht⟩ | ⟨m, _, hm⟩
    · simp [initStreamState] at ht
    · simp [initStreamState, lookupS] at hm
  · constructor
    · simp [initStreamState]
    · intro k hk
      simp [initStreamState] at hk

theorem C2Inv_step (st st' : SState) (evs e' : List Event)
    (hInv : C2Inv st evs) (hOK : stepOK st st' e') : C2Inv st' (evs ++ e') := by
  obtain ⟨hc1, hc2, hcov, hwit, hkeys⟩ := hInv
  obtain ⟨hE2, hE3, hs1, hs2, hkp⟩ := hOK
  refine ⟨?_, ?_, ?_, ?_, hkp hkeys⟩
  · rw [countName_append, hc1, hs1]
  · rw [countName_append, hc2, hs2]
  · intro q i h
    rcases atIs_split evs e' q _ h with ⟨hlt, hA⟩ | ⟨r, hreq, hB⟩
    · obtain ⟨p, hp, hpa⟩ := hcov q i hA
      refine ⟨p, hp, ?_⟩
      rw [atIs_append_left _ _ _ _ (atIs_lt_length _ _ _ hpa)]
      exact hpa
    · subst hreq
      rcases hE2 r i hB with ⟨p, hp, hpa⟩ | hst
      · refine ⟨evs.length + p, by omega, ?_⟩
        rw [atIs_append_right]
        exact hpa
      · obtain ⟨p, hpa⟩ := hwit i hst
        have hplt := atIs_lt_length _ _ _ hpa
        refine ⟨p, by omega, ?_⟩
        rw [atIs_append_left _ _ _ _ hplt]
        exact hpa
  · intro i hst
    rcases hE3 i hst with hst0 | ⟨p, hpa⟩
    · obtain ⟨p, hpa⟩ := hwit i hst0
      refine ⟨p, ?_⟩
      rw [atIs_append_left _ _ _ _ (atIs_lt_length _ _ _ hpa)]
      exact hpa
    · refine ⟨evs.length + p, ?_⟩
      rw [atIs_append_right]
      exact hpa

theorem runLines_C2 (ctx : Ctx) :
    ∀ (ls : List (List Char)) (st : SState) (evs : List Event),
      C2Inv st evs → (∀ l ∈ ls, wfLine l = true) → (∀ l ∈ ls, isDoneLine l = false) →
      ∃ st' evs', runLines ctx st evs ls = .running st' evs' ∧ C2Inv st' evs' := by
  intro ls
  induction ls with
  | nil =>
    intro st evs h _ _
    exact ⟨st, evs, rfl, h⟩
  | cons l ls ih =>
    intro st evs h hwf hnd
    obtain ⟨st1, e1, hs, hOK⟩ := stepLine_C2 ctx st l (hwf l (by simp)) (hnd l (by simp))
    rw [runLines_cons_eq, hs]
    exact ih st1 (evs ++ e1) (C2Inv_step st st1 evs e1 h hOK)
      (fun x hx => hwf x (by simp [hx])) (fun x hx => hnd x (by simp [hx]))

/-! ## C2 — the `[DONE]` finalization -/

theorem insertSorted_perm (p : Nat × String) :
    ∀ l : List (Nat × String), List.Perm (insertSorted p l) (p :: l)
  | [] => List.Perm.refl _
  | q :: rest => by
    unfold insertSorted
    split
    · exact List.Perm.refl _
    · exact ((insertSorted_perm p rest).cons q).trans (List.Perm.swap p q rest)

theorem foldl_insertSorted_perm :
    ∀ (xs : List (Nat × String)) (acc : List (Nat × String)),
      List.Perm (xs.foldl (fun acc p => insertSorted p acc) acc) (xs ++ acc)
  | [], acc => by simp
  | x :: xs, acc => by
    show List.Perm (List.foldl _ (insertSorted x acc) xs) _
    refine (foldl_insertSorted_perm xs (insertSorted x acc)).trans ?_
    refine (List.Perm.append_left xs (insertSorted_perm x acc)).trans ?_
    exact List.perm_middle

theorem mapSnd_filterMap (ks : List String) :
    (ks.filterMap (fun k => (canonicalNat? k).map (fun n => (n, k)))).map Prod.snd =
      ks.filter (fun k => (canonicalNat? k).isSome) := by
  induction ks with
  | nil => rfl
  | cons k ks ih =>
    rcases hc : canonicalNat? k with _ | n <;>
      simp [List.filterMap_cons, List.filter_cons, hc, ih]

theorem forInKeys_perm (accs : List (String × String)) :
    List.Perm (forInKeys accs) (accs.map Prod.fst) := by
  unfold forInKeys
  have h1 : List.Perm ((((accs.map Prod.fst).filterMap
      (fun k => (canonicalNat? k).map (fun n => (n, k)))).foldl
        (fun acc p => insertSorted p acc) []).map Prod.snd)
      ((accs.map Prod.fst).filter (fun k => (canonicalNat? k).isSome)) := by
    refine (List.Perm.map Prod.snd (foldl_insertSorted_perm _ [])).trans ?_
    rw [List.append_nil, mapSnd_filterMap]
  refine (h1.append (List.Perm.refl _)).trans ?_
  have h2 : (accs.map Prod.fst).filter (fun k => (canonicalNat? k).isNone) =
      (accs.map Prod.fst).filter (fun k => !(canonicalNat? k).isSome) := by
    apply List.filter_congr
    intro x _
    rcases canonicalNat? x with _ | n <;> rfl
  rw [h2]
  exact List.filter_append_perm _ _

theorem payloadIndex_blockStop (j : Json) : payloadIndex (evBlockStop j) = some j := rfl

theorem evBlockStop_fst (j : Json) : (evBlockStop j).1 = "content_block_stop" := rfl

theorem isStopB_blockStop (j i : Json) : isStopB (evBlockStop j) i = decide (j = i) := by
  by_cases h : j = i
  · subst h
    simp [isStopB, evBlockStop_fst, payloadIndex_blockStop]
  · simp [isStopB, evBlockStop_fst, payloadIndex_blockStop, h]

theorem idx_nodup (accs : List (String × String)) (hk : keysInv accs) :
    ((forInKeys accs).map (fun k =>
      match parseIntJs k with | some n => Json.num n | none => Json.null)).Nodup := by
  have hperm := forInKeys_perm accs
  have hnd : (forInKeys accs).Nodup := hperm.nodup_iff.2 hk.1
  refine List.Nodup.map_on ?_ hnd
  intro x hx y hy hxy
  obtain ⟨nx, hnx⟩ := hk.2 x (hperm.mem_iff.1 hx)
  obtain ⟨ny, hny⟩ := hk.2 y (hperm.mem_iff.1 hy)
  subst hnx
  subst hny
  rw [parseIntJs_render, parseIntJs_render] at hxy
  dsimp only [] at hxy
  injection hxy with h
  rw [h]

theorem filter_stop_render_zero (i : Json) :
    ∀ ks : List String,
      i ∉ ks.map (fun k =>
        match parseIntJs k with | some n => Json.num n | none => Json.null) →
      (List.filter (fun e => isStopB e i) (ks.map (fun k =>
        evBlockStop (match parseIntJs k with
          | some n => Json.num n | none => Json.null)))).length = 0
  | [] => fun _ => rfl
  | k :: ks => by
    intro h
    rw [List.map_cons] at h
    have hne : ¬(match parseIntJs k with
        | some n => Json.num n | none => Json.null) = i := by
      intro hc
      exact h (hc ▸ List.mem_cons_self _ _)
    have htail : i ∉ ks.map (fun k =>
        match parseIntJs k with | some n => Json.num n | none => Json.null) :=
      fun hc => h (List.mem_cons_of_mem _ hc)
    rw [List.map_cons, List.filter_cons, isStopB_blockStop, decide_eq_false hne]
    exact filter_stop_render_zero i ks htail

theorem filter_stop_render_le (i : Json) :
    ∀ ks : List String,
      (ks.map (fun k =>
        match parseIntJs k with | some n => Json.num n | none => Json.null)).Nodup →
      (List.filter (fun e => isStopB e i) (ks.map (fun k =>
        evBlockStop (match parseIntJs k with
          | some n => Json.num n | none => Json.null)))).length ≤ 1
  | [] => fun _ => by simp
  | k :: ks => by
    intro hnd
    rw [List.map_cons, List.nodup_cons] at hnd
    rw [List.map_cons, List.filter_cons, isStopB_blockStop]
    by_cases h : (match parseIntJs k with
        | some n => Json.num n | none => Json.null) = i
    · rw [decide_eq_true h, if_pos rfl, List.length_cons,
        filter_stop_render_zero i ks (h ▸ hnd.1)]
    · rw [decide_eq_false h]
      exact filter_stop_render_le i ks hnd.2

theorem countName_zero_of_names (l : List Event) (n : String)
    (h : ∀ e ∈ l, ¬e.1 = n) : countName l n = 0 := by
  induction l with
  | nil => rfl
  | cons e l ih =>
    rw [countName_cons, if_neg (h e (by simp))]
    rw [ih (fun x hx => h x (by simp [hx]))]

theorem countName_pos_of_mem (evs : List Event) (e : Event) (n : String)
    (hm : e ∈ evs) (hn : e.1 = n) : 1 ≤ countName evs n := by
  rw [countName, ← List.countP_eq_length_filter]
  have : 0 < List.countP (fun e => decide (e.1 = n)) evs := by
    rw [List.countP_pos]
    exact ⟨e, hm, by simpa using hn⟩
  omega

theorem countStops_le_countName (evs : List Event) (i : Json) :
    countStops evs i ≤ countName evs "content_block_stop" := by
  rw [countStops, countName, ← List.countP_eq_length_filter, ← List.countP_eq_length_filter]
  refine List.countP_mono_left ?_
  intro e _ he
  rw [isStopB, Bool.and_eq_true] at he
  exact he.1

theorem countStops_append (a b : List Event) (i : Json) :
    countStops (a ++ b) i = countStops a i + countStops b i := by
  rw [countStops, countStops, countStops, List.filter_append, List.length_append]

theorem stopsPart_names (st : SState) :
    ∀ e ∈ (if st.encounteredToolCall then
        (forInKeys st.toolCallAccumulators).map (fun k =>
          evBlockStop (match parseIntJs k with
            | some n => Json.num n | none => Json.null))
      else if st.textBlockStarted then [evBlockStop (.num 0)] else []),
      e.1 = "content_block_stop" := by
  intro e he
  split at he
  · obtain ⟨k, _, rfl⟩ := List.mem_map.1 he
    rfl
  · split at he
    · have : e = evBlockStop (.num 0) := List.mem_singleton.1 he
      subst this
      rfl
    · cases he

theorem finalizeDone_names (st : SState) :
    ∀ e ∈ finalizeDone st, e.1 = "content_block_stop" ∨ e.1 = "message_delta" ∨
      e.1 = "message_stop" := by
  intro e he
  unfold finalizeDone at he
  rcases List.mem_append.1 he with h | h
  · exact Or.inl (stopsPart_names st e h)
  · rcases List.mem_cons.1 h with rfl | h2
    · exact Or.inr (Or.inl rfl)
    · have : e = evMessageStop := List.mem_singleton.1 h2
      subst this
      exact Or.inr (Or.inr rfl)

theorem finalizeDone_msgStop (st : SState) :
    countName (finalizeDone st) "message_stop" = 1 := by
  unfold finalizeDone
  rw [countName_append]
  have h1 : countName (if st.encounteredToolCall then
      (forInKeys st.toolCallAccumulators).map (fun k =>
        evBlockStop (match parseIntJs k with
          | some n => Json.num n | none => Json.null))
    else if st.textBlockStarted then [evBlockStop (.num 0)] else [])
      "message_stop" = 0 := by
    refine countName_zero_of_names _ _ ?_
    intro e he hc
    have := stopsPart_names st e he
    rw [hc] at this
    exact absurd this (by decide)
  rw [h1]
  rfl

theorem finalizeDone_stops_le (st : SState) (hk : keysInv st.toolCallAccumulators)
    (i : Json) : countStops (finalizeDone st) i ≤ 1 := by
  unfold finalizeDone
  rw [countStops_append]
  have h2 : countStops [evMessageDelta
      (if st.encounteredToolCall then "tool_use" else "end_turn") st.usage,
      evMessageStop] i = 0 := rfl
  rw [h2]
  split
  · have := filter_stop_render_le i (forInKeys st.toolCallAccumulators) (idx_nodup _ hk)
    rw [countStops]
    omega
  · split
    · rw [countStops]
      have := List.length_filter_le (fun e => isStopB e i) [evBlockStop (.num 0)]
      simp only [List.length_singleton] at this
      omega
    · rw [countStops]
      simp

theorem finalizeDone_split (st : SState) :
    ∃ X, finalizeDone st = X ++ [evMessageStop] := by
  unfold finalizeDone
  refine ⟨(if st.encounteredToolCall then
      (forInKeys st.toolCallAccumulators).map (fun k =>
        evBlockStop (match parseIntJs k with
          | some n => Json.num n | none => Json.null))
    else if st.textBlockStarted then [evBlockStop (.num 0)] else []) ++
      [evMessageDelta (if st.encounteredToolCall then "tool_use" else "end_turn") st.usage],
    ?_⟩
  rw [List.append_assoc]
  rfl

theorem stepLine_done (ctx : Ctx) (st : SState) (l : List Char)
    (hd : isDoneLine l = true) :
    stepLine ctx st l = .finished (finalizeDone st) := by
  rw [isDoneLine, decide_eq_true_eq] at hd
  unfold stepLine
  rw [hd]
  dsimp only []
  rw [if_pos rfl]

theorem finalize_no_start (st : SState) (r : Nat) (i : Json)
    (h : atIs (finalizeDone st) r (fun e => isStartB e i) = true) : False := by
  obtain ⟨e, hm, hf⟩ := mem_of_atIs _ _ _ h
  have hname := ((isStartB_iff e i).1 hf).1
  rcases finalizeDone_names st e hm with h1 | h1 | h1 <;> rw [hname] at h1 <;>
    exact absurd h1 (by decide)

theorem finalize_no_delta (st : SState) (r : Nat) (i : Json)
    (h : atIs (finalizeDone st) r (fun e => isDeltaB e i) = true) : False := by
  obtain ⟨e, hm, hf⟩ := mem_of_atIs _ _ _ h
  have hname := ((isDeltaB_iff e i).1 hf).1
  rcases finalizeDone_names st e hm with h1 | h1 | h1 <;> rw [hname] at h1 <;>
    exact absurd h1 (by decide)

theorem no_stop_of_count (evs : List Event)
    (h : countName evs "content_block_stop" = 0) (q : Nat) (j : Json)
    (hq : atIs evs q (fun e => isStopB e j) = true) : False := by
  obtain ⟨e, hm, hf⟩ := mem_of_atIs _ _ _ hq
  rw [isStopB, Bool.and_eq_true] at hf
  have := countName_pos_of_mem evs e "content_block_stop" hm (of_decide_eq_true hf.1)
  omega

/-- C2 (amended): for every well-formed upstream stream terminated by the
`[DONE]` sentinel, the emitted event sequence satisfies
`amendedBlockOrdering`: every `content_block_delta` has an earlier
`content_block_start` for its index, all `content_block_stop` events come
after every start and delta, no index receives two stops, and a single
`message_stop` ends the stream.  The claimed stronger ordering is refuted by
`C2_counterexample`: the text block and a tool call with upstream index 0
share index 0, so a start can follow a delta of the same index, and with
tool calls present the text block never receives a stop. -/
theorem C2_block_ordering (ctx : Ctx) (L1 : List String) (d : String) (L2 : List String)
    (hwf : ∀ l ∈ L1, wfLine l.data = true)
    (hnd : ∀ l ∈ L1, isDoneLine l.data = false)
    (hd : isDoneLine d.data = true) :
    amendedBlockOrdering (eventsOfR (runSSE ctx (L1 ++ d :: L2))) := by
  have hmap : (L1 ++ d :: L2).map String.data =
      L1.map String.data ++ d.data :: L2.map String.data := by simp
  obtain ⟨stF, evsF, hrun, hInv⟩ := runLines_C2 ctx (L1.map String.data) initStreamState []
    C2Inv_init
    (by intro l hl; obtain ⟨x, hx, rfl⟩ := List.mem_map.1 hl; exact hwf x hx)
    (by intro l hl; obtain ⟨x, hx, rfl⟩ := List.mem_map.1 hl; exact hnd x hx)
  have hE : eventsOfR (runSSE ctx (L1 ++ d :: L2)) = evsF ++ finalizeDone stF := by
    unfold runSSE
    rw [hmap, runLines_append, hrun]
    dsimp only []
    rw [runLines_cons_eq, stepLine_done ctx stF d.data hd]
    rfl
  rw [hE]
  obtain ⟨hc1, hc2, hcov, hwit, hkeys⟩ := hInv
  refine ⟨?_, ?_, ?_, ?_, ?_⟩
  · intro q i h
    rcases atIs_split evsF _ q _ h with ⟨hlt, hA⟩ | ⟨r, hreq, hB⟩
    · obtain ⟨p, hp, hpa⟩ := hcov q i hA
      refine ⟨p, hp, ?_⟩
      rw [atIs_append_left _ _ _ _ (atIs_lt_length _ _ _ hpa)]
      exact hpa
    · exact (finalize_no_delta stF r i hB).elim
  · intro p q i j hp hq
    have hplt : p < evsF.length := by
      rcases atIs_split evsF _ p _ hp with ⟨hlt, _⟩ | ⟨r, hreq, hB⟩
      · exact hlt
      · obtain ⟨e, hm, hf⟩ := mem_of_atIs _ _ _ hB
        rw [Bool.or_eq_true] at hf
        rcases hf with hf | hf
        · obtain ⟨rr, hrr⟩ :=
            atIs_of_mem (finalizeDone stF) e (fun e => isStartB e i) hm hf
          exact (finalize_no_start stF rr i hrr).elim
        · obtain ⟨rr, hrr⟩ :=
            atIs_of_mem (finalizeDone stF) e (fun e => isDeltaB e i) hm hf
          exact (finalize_no_delta stF rr i hrr).elim
    have hqge : evsF.length ≤ q := by
      by_contra hlt
      push_neg at hlt
      rw [atIs_append_left _ _ _ _ hlt] at hq
      exact no_stop_of_count evsF hc1 q j hq
    omega
  · intro i
    rw [countStops_append]
    have h0 : countStops evsF i = 0 := by
      have h1 := countStops_le_countName evsF i
      omega
    rw [h0]
    simpa using finalizeDone_stops_le stF hkeys i
  · rw [countName_append, hc2, finalizeDone_msgStop]
  · obtain ⟨X, hX⟩ := finalizeDone_split stF
    rw [hX, ← List.append_assoc]
    exact ⟨evMessageStop, List.getLast?_concat _, rfl⟩

/-- C2 counterexample: in the stream `exC2lines` — a text delta followed by
tool calls at the two distinct upstream indices 0 and 1 — the downstream
sequence has a `content_block_delta` for index 0 (the text delta) at
position 3 and a `content_block_start` for index 0 (the tool block) at
position 4, so a start for index 0 follows a delta for index 0 and the
claimed block ordering fails. -/
theorem C2_counterexample :
    atIs (eventsOfR (runSSE ctx0 exC2lines)) 3 (fun e => isDeltaB e (.num 0)) = true ∧
    atIs (eventsOfR (runSSE ctx0 exC2lines)) 4 (fun e => isStartB e (.num 0)) = true ∧
    atIs (eventsOfR (runSSE ctx0 exC2lines)) 6 (fun e => isStartB e (.num 1)) = true ∧
    ¬claimBlockOrdering (eventsOfR (runSSE ctx0 exC2lines)) := by
  refine ⟨by decide, by decide, by decide, fun hcl => ?_⟩
  have h := hcl.1 4 3 (.num 0) (by decide) (by decide)
  omega

theorem C2_witness :
    (∀ l ∈ exC2wlines.take 2, wfLine l.data = true) ∧
    (∀ l ∈ exC2wlines.take 2, isDoneLine l.data = false) ∧
    isDoneLine ("data: [DONE]" : String).data = true ∧
    amendedBlockOrdering (eventsOfR (runSSE ctx0 exC2wlines)) := by
  refine ⟨by decide, by decide, by decide, ?_⟩
  have h := C2_block_ordering ctx0 (exC2wlines.take 2) "data: [DONE]" []
    (by decide) (by decide) (by decide)
  have heq : exC2wlines.take 2 ++ "data: [DONE]" :: [] = exC2wlines := rfl
  rw [heq] at h
  exact h
